import Mathlib

/-!
Verification of the natural-language specification of `pyshtools.shio.shread`
against a shallow embedding of `src/pyshtools/shio/shread.py`.

The file content is modelled as a `List Char` (the decoded bytes of the file;
the files in scope are ASCII with `'\n'` line terminators, for which the
binary pass and the text-mode passes of the source see the same characters).
Python `str.split()`, `str.isspace()`, `str.isdecimal()` and the numeric
literal conversions `int`, `float`, `complex` are modelled below; the byte
seeking logic of the backward tail scan is embedded position by position.
-/

set_option maxHeartbeats 1000000

/-- Whitespace characters recognised by Python `str.split()` / `str.isspace()`
(ASCII range). -/
def pySpace (c : Char) : Bool :=
  c = ' ' || c = '\t' || c = '\n' || c = '\r' || c = '\x0b' || c = '\x0c'

/-- Python `str.isspace()`: nonempty and consisting only of whitespace. -/
def pyIsSpace (l : List Char) : Bool := !l.isEmpty && l.all pySpace

/-- Helper for `pySplit`; `acc` is the current token accumulated in reverse. -/
def pySplitAux : List Char → List Char → List (List Char)
  | [], acc => if acc.isEmpty then [] else [acc.reverse]
  | c :: cs, acc =>
    if pySpace c then
      if acc.isEmpty then pySplitAux cs [] else acc.reverse :: pySplitAux cs []
    else pySplitAux cs (c :: acc)

/-- Python `str.split()` with no arguments: split on runs of whitespace,
discarding empty tokens. -/
def pySplit (l : List Char) : List (List Char) := pySplitAux l []

/-- Python `str.isdecimal()` on ASCII text: nonempty and all decimal digits. -/
def isDec (t : List Char) : Bool := !t.isEmpty && t.all Char.isDigit

/-- Numeric value of a string of decimal digits. -/
def decVal (t : List Char) : Nat := t.foldl (fun a c => 10 * a + (c.toNat - 48)) 0

/-- Python `int()` restricted to the tokens it is applied to in `shread`:
every call site passes a token that already satisfied `isdecimal`, for which
`int` returns the decimal value. Other inputs do not occur on the paths
modelled here; they are mapped to `none` (an uncaught `ValueError`). -/
def pyIntDec (t : List Char) : Option Nat :=
  if isDec t then some (decVal t) else none

/-- Embedding of `_iscomment` from `shread.py` (lines 212-221): a line is a
comment iff it is pure whitespace, or has fewer than 4 whitespace-separated
words, or its first two words are not both decimal. -/
def _iscomment (line : List Char) : Bool :=
  if pyIsSpace line then true
  else if 4 ≤ (pySplit line).length then
    if isDec ((pySplit line).getD 0 []) && isDec ((pySplit line).getD 1 []) then false
    else true
  else true

/-! Basic lemmas about splitting. -/

theorem pySplitAux_all_space (l : List Char) (h : l.all pySpace) :
    ∀ acc, pySplitAux l acc = if acc.isEmpty then [] else [acc.reverse] := by
  induction l with
  | nil => intro acc; rfl
  | cons c cs ih =>
    intro acc
    simp only [List.all_cons, Bool.and_eq_true] at h
    rw [pySplitAux, if_pos h.1]
    by_cases hacc : acc.isEmpty = true
    · rw [if_pos hacc, if_pos hacc, ih h.2 []]
      rfl
    · rw [if_neg hacc, if_neg hacc, ih h.2 []]
      rfl

theorem pySplit_all_space (l : List Char) (h : l.all pySpace) : pySplit l = [] := by
  rw [pySplit, pySplitAux_all_space l h]; rfl

/-- Characterization of the comment classifier (helper for claim C4). -/
theorem iscomment_false_iff (line : List Char) :
    _iscomment line = false ↔
      (4 ≤ (pySplit line).length ∧
       isDec ((pySplit line).getD 0 []) = true ∧
       isDec ((pySplit line).getD 1 []) = true) := by
  unfold _iscomment
  by_cases hsp : pyIsSpace line = true
  · have hspl : pySplit line = [] :=
      pySplit_all_space line (Bool.and_eq_true _ _ |>.mp hsp).2
    rw [if_pos hsp]
    exact iff_of_false (by simp) (fun h => by rw [hspl] at h; simp at h)
  · rw [if_neg hsp]
    by_cases hlen : 4 ≤ (pySplit line).length
    · rw [if_pos hlen]
      by_cases h0 : isDec ((pySplit line).getD 0 []) = true
      · by_cases h1 : isDec ((pySplit line).getD 1 []) = true
        · rw [if_pos (by rw [h0, h1]; rfl)]
          exact iff_of_true rfl ⟨hlen, h0, h1⟩
        · rw [if_neg (fun h => h1 (Bool.and_eq_true _ _ |>.mp h).2)]
          exact iff_of_false (by simp) (fun h => h1 h.2.2)
      · rw [if_neg (fun h => h0 (Bool.and_eq_true _ _ |>.mp h).1)]
        exact iff_of_false (by simp) (fun h => h0 h.2.1)
    · rw [if_neg hlen]
      exact iff_of_false (by simp) (fun h => hlen h.1)

/-- Claim C4: the comment classifier returns `data` (false) exactly when the
line splits into at least 4 whitespace-separated tokens whose first two are
valid non-negative integer literals (Python `isdecimal`); in every other case
(a line of only whitespace, fewer than 4 tokens, or a non-decimal first or
second token) it returns `comment` (true). The single function `_iscomment`
is the one applied by the tail scanner, the start locator and the grid
reader in the embedding of `shread`, so the predicate is applied identically
by every scanning component. -/
theorem C4_iscomment_characterization (line : List Char) :
    _iscomment line = false ↔
      (4 ≤ (pySplit line).length ∧
       isDec ((pySplit line).getD 0 []) = true ∧
       isDec ((pySplit line).getD 1 []) = true) :=
  iscomment_false_iff line

/-! Numeric literal parsing. `float()` and `complex()` are Python builtins,
not code of this repository; they are modelled from the spec (section 6):
real tokens follow standard decimal/scientific notation, complex tokens
follow the grammar with a trailing literal j and no internal whitespace. -/

/-- Complex value as a pair of rationals (re, im). A real coefficient file
stores the parsed real in `re` with `im = 0`. -/
structure Cplx where
  re : ℚ
  im : ℚ
deriving DecidableEq, Repr

/-- Longest prefix of decimal digits, and the rest. -/
def takeDigits : List Char → (List Char × List Char)
  | [] => ([], [])
  | c :: cs =>
    if c.isDigit then
      let r := takeDigits cs
      (c :: r.1, r.2)
    else ([], c :: cs)

/-- Optional leading sign; returns (isNegative, rest). -/
def takeSign : List Char → (Bool × List Char)
  | '+' :: cs => (false, cs)
  | '-' :: cs => (true, cs)
  | cs => (false, cs)

/-- Modelled from the spec: unsigned mantissa of a real literal, either
`digits [. digits]` or `. digits`; returns the value and the rest. -/
def pyUMant (l : List Char) : Option (ℚ × List Char) :=
  let ip := takeDigits l
  match ip.2 with
  | '.' :: r3 =>
    let fp := takeDigits r3
    if ip.1.isEmpty && fp.1.isEmpty then none
    else some ((decVal ip.1 : ℚ) + (decVal fp.1 : ℚ) / (10 : ℚ) ^ fp.1.length, fp.2)
  | _ => if ip.1.isEmpty then none else some ((decVal ip.1 : ℚ), ip.2)

/-- Modelled from the spec: optional exponent part `e/E [sign] digits`
applied to a mantissa; if no well-formed exponent starts here, the input is
left unconsumed. -/
def pyExpPart (mant : ℚ) : List Char → (ℚ × List Char)
  | [] => (mant, [])
  | c :: cs =>
    if c = 'e' || c = 'E' then
      let s := takeSign cs
      let d := takeDigits s.2
      if d.1.isEmpty then (mant, c :: cs)
      else
        let e : Int := if s.1 then -(decVal d.1 : Int) else (decVal d.1 : Int)
        (mant * (10 : ℚ) ^ e, d.2)
    else (mant, c :: cs)

/-- Modelled from the spec: signed real literal prefix
`[sign] mantissa [exponent]`; returns value and rest. -/
def pyFloatPre (l : List Char) : Option (ℚ × List Char) :=
  let s := takeSign l
  match pyUMant s.2 with
  | none => none
  | some m =>
    let r := pyExpPart m.1 m.2
    some (if s.1 then -r.1 else r.1, r.2)

/-- Modelled from the spec: Python `float()` on a whitespace-free token of
standard decimal/scientific notation. -/
def pyFloat (l : List Char) : Option ℚ :=
  match pyFloatPre l with
  | some (v, []) => some v
  | _ => none

/-- Modelled from the spec: Python `complex()` on the section 6 grammar
`<real>[+|-]<imag>j` with a mandatory trailing j and no internal whitespace;
a single `<real>j` is purely imaginary (as in Python). -/
def pyComplex (l : List Char) : Option Cplx :=
  match pyFloatPre l with
  | none => none
  | some (a, r) =>
    match r with
    | ['j'] => some ⟨0, a⟩
    | c :: cs =>
      if c = '+' || c = '-' then
        match pyFloatPre (c :: cs) with
        | some (b, ['j']) => some ⟨a, b⟩
        | _ => none
      else none
    | [] => none

/-- The numeric kind of a coefficient file: real or complex. -/
inductive SHKind where
  | real
  | cplx
deriving DecidableEq, Repr

/-- Parse one coefficient or error token the way the grid reader does:
`float()` for a real-kind file (stored with zero imaginary part),
`complex()` for a complex-kind file. -/
def parseVal : SHKind → List Char → Option Cplx
  | .real, t => (pyFloat t).map (fun q => (⟨q, 0⟩ : Cplx))
  | .cplx, t => pyComplex t

/-- Error taxonomy of the embedded `shread`. Each constructor records one
distinct raise site (or OS-level failure) of the source. -/
inductive ShErr where
  /-- `OSError` raised by `f.seek` when a backward seek in the tail scan
  moves before the start of the file (negative position). -/
  | seekError
  /-- Model artifact: recursion fuel of the backward scan exhausted.
  `lastLineScan` supplies fuel larger than the scanned position, which the
  scan strictly decreases, so this value is never produced by it. -/
  | fuelOut
  /-- `ValueError` raised in the kind-determination block, naming the
  offending token and the full line (shread.py lines 117-121). -/
  | formatError (token line : List Char)
  /-- An uncaught `ValueError` from `int()`, `float()` or `complex()` at a
  call site outside the kind-determination try blocks (not reachable on data
  lines, which always have at least 4 tokens with decimal first words). -/
  | convError
  /-- `RuntimeError`: end of file while skipping lines (line 129). -/
  | eofSkip
  /-- `RuntimeError`: end of file while reading the header line (line 135). -/
  | eofHeader
  /-- `RuntimeError`: end of file while determining lstart (lines 141-147). -/
  | eofLstart
  /-- `RuntimeError`: end of file at the named degree and order (161-170). -/
  | eofGrid (degree order : Nat)
  /-- `RuntimeError` of lines 176-179. The four fields appear in the message
  "Read {0}, {1}. Expected {2}, {3}." in this order; the source fills them
  with the format arguments `(degree, order, l, m)`, i.e. the loop's expected
  position lands in the "Read" slots and the pair read from the file lands
  in the "Expected" slots. -/
  | orderMismatch (msgReadL msgReadM msgExpectedL msgExpectedM : Nat)
  /-- `RuntimeError`: errors requested but the line has < 6 tokens (189). -/
  | insufficientFields (line : List Char)
deriving DecidableEq, Repr

/-! The backward tail scan (shread.py lines 81-95). The binary file handle
is modelled by the char list `b` and an explicit position. `f.read(1)` at
position `p` yields `b[p]?` (with `none` for end of file, where the position
does not advance); `f.seek` to a negative position raises `OSError`
(`ShErr.seekError`). -/

/-- Character at a position (`f.read(1)` after seeking there). -/
def getC (b : List Char) (p : Nat) : Option Char := b[p]?

/-- The loop `while f.read(1) == b'\n': f.seek(-2, os.SEEK_CUR)` started at
position `p`: steps backward over line-break bytes; returns the position
after the final one-byte read, or `seekError` when the seek goes negative. -/
def stripNL (b : List Char) : Nat → Except ShErr Nat
  | 0 => if getC b 0 = some '\n' then .error .seekError else .ok 1
  | p + 1 => if getC b (p + 1) = some '\n' then stripNL b p else .ok (p + 2)

/-- The loop `while f.read(1) != b'\n': f.seek(-2, os.SEEK_CUR)` started at
position `p`: steps backward until a line-break byte is read, returning the
position just after it (the start of the following line); a read at end of
file returns no byte and the position stays, so the seek then moves back by
two. The seek raises when it would move before position 0. -/
def findNL (b : List Char) : Nat → Except ShErr Nat
  | 0 =>
    match getC b 0 with
    | some c => if c = '\n' then .ok 1 else .error .seekError
    | none => .error .seekError
  | 1 =>
    match getC b 1 with
    | some c => if c = '\n' then .ok 2 else findNL b 0
    | none => .error .seekError
  | p + 2 =>
    match getC b (p + 2) with
    | some c => if c = '\n' then .ok (p + 3) else findNL b (p + 1)
    | none => findNL b p

/-- One line read forward from the head of the list: everything up to and
including the first line break (or to the end). -/
def takeLine : List Char → List Char
  | [] => []
  | c :: cs => if c = '\n' then ['\n'] else c :: takeLine cs

/-- `f.readline()` at position `q`. -/
def lineAt (b : List Char) (q : Nat) : List Char := takeLine (b.drop q)

/-- The outer loop `while _iscomment(line)` of the tail scan, with explicit
fuel (the scanned position strictly decreases, so any fuel exceeding the
starting position suffices; `lastLineScan` passes the file length). Each
iteration finds the start of the line preceding position `p`, reads that
line, seeks back before it (raising if that seek goes negative — note the
source seeks before re-testing the loop condition), and stops when the line
read is not a comment. -/
def tailLoopF (b : List Char) : Nat → Nat → Except ShErr (List Char)
  | 0, _ => .error .fuelOut
  | fuel + 1, p =>
    match findNL b p with
    | .error e => .error e
    | .ok start =>
      let line := lineAt b start
      if start < 2 then .error .seekError
      else if _iscomment line then tailLoopF b fuel (start - 2) else .ok line

/-- Embedding of the whole tail scan (the first `with open` block of
`shread`, lines 81-95): seek to two before the end (raising on files shorter
than 2 bytes), strip trailing line breaks, seek back two, and scan backward
line by line for the last non-comment line. -/
def lastLineScan (b : List Char) : Except ShErr (List Char) :=
  if b.length < 2 then .error .seekError
  else
    match stripNL b (b.length - 2) with
    | .error e => .error e
    | .ok pos =>
      if pos < 2 then .error .seekError
      else tailLoopF b b.length (pos - 2)

/-- Kind determination from the tail line (shread.py lines 104-121): try
`float` on the third word, then `complex`, else raise the `ValueError`
naming the offending token and the unformatted line. -/
def detKind (line : List Char) : Except ShErr SHKind :=
  let t := (pySplit line).getD 2 []
  if (pyFloat t).isSome then .ok .real
  else if (pyComplex t).isSome then .ok .cplx
  else .error (.formatError t line)

/-- The results of the tail pass: `lmaxfile` (int of the first word of the
last non-comment line, shread.py line 97) and the numeric kind. Note this
function takes only the file content: it does not depend on `skip`, the
header flag, or any degree cap. -/
def shreadTail (content : List Char) : Except ShErr (Nat × SHKind) := do
  let line ← lastLineScan content
  let lmaxfile ←
    match pyIntDec ((pySplit line).getD 0 []) with
    | some v => Except.ok v
    | none => Except.error .convError
  let kind ← detKind line
  Except.ok (lmaxfile, kind)

/-! The forward passes (shread.py lines 124-209). A text-mode file handle is
modelled as the list of its remaining lines, each line carrying its
terminating line break (except a final unterminated line); `f.readline()`
pops the head, or yields the empty string at end of file. -/

/-- Decompose the file content into readline-lines: each ends with `'\n'`
except a possible final fragment. -/
def toLines : List Char → List (List Char)
  | [] => []
  | c :: cs =>
    if c = '\n' then ['\n'] :: toLines cs
    else
      match toLines cs with
      | [] => [[c]]
      | l :: ls => (c :: l) :: ls

/-- The skip loop of the second pass (lines 125-130): read and discard
`skip` lines, raising at end of file. -/
def skipChk : Nat → List (List Char) → Except ShErr (List (List Char))
  | 0, ls => .ok ls
  | _ + 1, [] => .error .eofSkip
  | k + 1, _ :: ls => skipChk k ls

/-- Read lines until the first non-comment one (the readline/while-comment
loops of lines 139-147 and 160-170), failing with the given end-of-file
error. Returns the data line and the rest of the stream. -/
def findData (e : ShErr) : List (List Char) → Except ShErr (List Char × List (List Char))
  | [] => .error e
  | l :: ls => if _iscomment l then findData e ls else .ok (l, ls)

/-- The second pass (lines 124-148): skip lines, optionally read the header
line verbatim into its whitespace-split tokens, then find the first data
line and parse `lstart` from its first word. -/
def pass2 (lines : List (List Char)) (header : Bool) (skip : Nat) :
    Except ShErr (Option (List (List Char)) × Nat) := do
  let ls ← skipChk skip lines
  let (hdr, ls2) ←
    if header then
      match ls with
      | [] => Except.error .eofHeader
      | h :: t => Except.ok (some (pySplit h), t)
    else Except.ok (none, ls)
  let (line, _) ← findData .eofLstart ls2
  match pyIntDec ((pySplit line).getD 0 []) with
  | some v => Except.ok (hdr, v)
  | none => Except.error .convError

/-- A dense coefficient array `coeffs[2][lmax+1][lmax+1]`. -/
abbrev Grid := List (List (List Cplx))

/-- Replace the element at an index by applying `f` (no-op out of range). -/
def modIdx : List α → Nat → (α → α) → List α
  | [], _, _ => []
  | a :: as, 0, f => f a :: as
  | a :: as, n + 1, f => a :: modIdx as n f

/-- `g[c][l][m] = v` (numpy element assignment; all writes performed by the
source are within the allocated shape). -/
def setG (g : Grid) (c l m : Nat) (v : Cplx) : Grid :=
  modIdx g c (fun pl => modIdx pl l (fun row => row.set m v))

/-- Read `g[c][l][m]`, with 0 for an out-of-shape index. -/
def getG (g : Grid) (c l m : Nat) : Cplx :=
  (((g.getD c []).getD l []).getD m ⟨0, 0⟩)

/-- `_np.zeros((2, lmax+1, lmax+1))`. -/
def zeroGrid (lmax : Nat) : Grid :=
  List.replicate 2 (List.replicate (lmax + 1) (List.replicate (lmax + 1) ⟨0, 0⟩))

/-- State of the grid-reading pass: remaining lines and the two arrays (the
error array is carried unchanged when errors are not requested). -/
structure GState where
  rest : List (List Char)
  co : Grid
  er : Grid
deriving DecidableEq, Repr

/-- Body of the inner loop of the third pass (lines 160-200) for one
(degree, order) cell: find the next data line, check its (l, m) words
against the expected position, parse words 3-4 into the coefficient array
and, when errors are requested, require at least 6 words and parse words 5-6
into the error array. -/
def readCell (wantErr : Bool) (kind : SHKind) (degree order : Nat) (st : GState) :
    Except ShErr GState := do
  let (line, rest) ← findData (.eofGrid degree order) st.rest
  let toks := pySplit line
  let l ← match pyIntDec (toks.getD 0 []) with
          | some v => Except.ok v
          | none => Except.error .convError
  let m ← match pyIntDec (toks.getD 1 []) with
          | some v => Except.ok v
          | none => Except.error .convError
  if degree ≠ l ∨ order ≠ m then
    Except.error (.orderMismatch degree order l m)
  else
    let c0 ← match parseVal kind (toks.getD 2 []) with
             | some v => Except.ok v
             | none => Except.error .convError
    let c1 ← match parseVal kind (toks.getD 3 []) with
             | some v => Except.ok v
             | none => Except.error .convError
    let co2 := setG (setG st.co 0 l m c0) 1 l m c1
    if wantErr then
      if toks.length < 6 then
        Except.error (.insufficientFields line)
      else
        let e0 ← match parseVal kind (toks.getD 4 []) with
                 | some v => Except.ok v
                 | none => Except.error .convError
        let e1 ← match parseVal kind (toks.getD 5 []) with
                 | some v => Except.ok v
                 | none => Except.error .convError
        Except.ok ⟨rest, co2, setG (setG st.er 0 l m e0) 1 l m e1⟩
    else
      Except.ok ⟨rest, co2, st.er⟩

/-- The nested degree/order loops of the third pass, flattened into a list
of expected (degree, order) positions processed in order. -/
def readPairs (wantErr : Bool) (kind : SHKind) :
    List (Nat × Nat) → GState → Except ShErr GState
  | [], st => .ok st
  | p :: ps, st => do
    let st2 ← readCell wantErr kind p.1 p.2 st
    readPairs wantErr kind ps st2

/-- The (degree, order) positions `for degree in range(lstart, lmaxout+1):
for order in range(degree+1)` in iteration order. -/
def triangle (lstart lmaxout : Nat) : List (Nat × Nat) :=
  (List.range' lstart (lmaxout + 1 - lstart)).flatMap
    (fun l => (List.range (l + 1)).map (fun m => (l, m)))

/-- The tuple returned by `shread`, as a record; `er` and `hd` are present
exactly when the corresponding flags were set. -/
structure ShResult where
  co : Grid
  er : Option Grid
  hd : Option (List (List Char))
  lmaxout : Nat
deriving DecidableEq, Repr

/-- `lmaxout` from the requested cap and the tail-scan degree
(shread.py lines 98-101): `min(lmax, lmaxfile)`, or `lmaxfile` with no cap. -/
def capOf (lmax : Option Nat) (lmaxfile : Nat) : Nat :=
  match lmax with
  | some k => min k lmaxfile
  | none => lmaxfile

/-- Embedding of `shread(filename, lmax, error, header, skip)` over the file
content. Pass 1 (tail scan) yields `lmaxfile` and the kind;
`lmaxout = min(lmax, lmaxfile)` or `lmaxfile` when no cap is given. Pass 2
yields the header tokens and `lstart`. Pass 3 re-skips `skip` lines and the
header line without checks, then reads the triangle of coefficient lines. -/
def shread (content : List Char) (lmax : Option Nat) (error header : Bool)
    (skip : Nat) : Except ShErr ShResult := do
  let tl ← shreadTail content
  let lmaxout := capOf lmax tl.1
  let (hdr, lstart) ← pass2 (toLines content) header skip
  let ls3 := (toLines content).drop skip
  let ls3 := if header then ls3.drop 1 else ls3
  let st ← readPairs error tl.2 (triangle lstart lmaxout)
    ⟨ls3, zeroGrid lmaxout, zeroGrid lmaxout⟩
  Except.ok ⟨st.co, if error then some st.er else none, hdr, lmaxout⟩

/-- Decidable equality for `Except` results, so concrete runs of the
embedding can be checked by `decide`. -/
instance {e a : Type} [DecidableEq e] [DecidableEq a] : DecidableEq (Except e a) := fun x y =>
  match x, y with
  | .ok u, .ok v =>
    if h : u = v then isTrue (by rw [h]) else isFalse (by simp [h])
  | .error u, .error v =>
    if h : u = v then isTrue (by rw [h]) else isFalse (by simp [h])
  | .ok _, .error _ => isFalse (by simp)
  | .error _, .ok _ => isFalse (by simp)

/-! Concrete evaluations settling the negative sides of several claims. -/

/-- Claim C1 counterexample: a well-formed file consisting of a single data
line of degree 0. The claim asserts the call with no cap returns
`lmaxOut = 0`; instead the backward tail scan, searching for a line break
before the last data line, seeks past the start of the file and the call
dies with the `OSError` from `f.seek` (negative seek), returning nothing. -/
theorem C1_counterexample :
    shread ("0 0 1.0 0.0\n".toList) none false false 0 = .error .seekError := by
  decide

/-- Claim C3 counterexample: a well-formed file consisting of the single
data line "0 0 1.0 2.0" has true maximum degree 0, and the claim asserts
that a call with cap `k = 5` returns `lmaxOut = min 5 0 = 0`. Instead the
cap is never consulted: the backward tail scan runs first, seeks past the
start of the file, and the call dies with the negative-seek `OSError`. -/
theorem C3_counterexample :
    shread ("0 0 1.0 2.0\n".toList) (some 5) false false 0
      = .error .seekError := by
  decide

/-- Claim C6 evaluation at the failing input: the grid reader expects
(degree, order) = (1, 0) but the next data line of the file carries
(l, m) = (0, 0). The source raises the order-mismatch `RuntimeError`, but
its message "Read {}, {}. Expected {}, {}." is filled with the format
arguments `(degree, order, l, m)`: the expected pair (1, 0) lands in the
slots labelled "Read" and the pair (0, 0) actually read from the file lands
in the slots labelled "Expected" — the opposite of what the claim (and the
message's own wording) says. -/
theorem C6_swapped_message_eval :
    shread ("0 0 1.0 2.0\n0 0 9.9 9.9\n1 1 1.0 2.0\n".toList) none false false 0
      = .error (.orderMismatch 1 0 0 0) := by
  decide

/-- Claim C7 counterexample: inserting the comment line "c" at the very
beginning of a file read with `wantHeader = true` (i.e. between the zero
skipped lines and the header line) changes the result: the comment itself is
captured verbatim as the header, so the header tokens change from
["H", "1"] to ["c"]. -/
theorem C7_counterexample :
    (shread ("c\nH 1\n0 0 1.0 2.0\n".toList) none false true 0).map ShResult.hd
      ≠ (shread ("H 1\n0 0 1.0 2.0\n".toList) none false true 0).map ShResult.hd := by
  decide

/-- Claim C8 counterexample: errors are requested and the grid reader
consumes the 4-token data line "5 5 1 1" (at expected position (1, 0)).
The claim says every consumed data line with fewer than 6 tokens fails with
`InsufficientFields`; instead the order check fires first and the call
fails with the order-mismatch error. -/
theorem C8_counterexample :
    shread ("0 0 1.0 2.0 3.0 4.0\n5 5 1 1\n".toList) none true false 0
      = .error (.orderMismatch 1 0 5 5) := by
  decide

/-- Claim C9 counterexample: on an empty file the call fails — but with the
`OSError` of `f.seek(-2, os.SEEK_END)` (seek to a negative position), not
with an error of the EndOfFile kind; the tail scan has no end-of-stream
check at all. -/
theorem C9_counterexample :
    shread [] none false false 0 = .error .seekError := by
  decide

/-! Lemmas about the dense arrays. -/

theorem modIdx_length (f : α → α) (l : List α) :
    ∀ n, (modIdx l n f).length = l.length := by
  induction l with
  | nil => intro n; rfl
  | cons a as ih => intro n; cases n <;> simp [modIdx, ih]

theorem modIdx_getD_self (f : α → α) (d : α) (l : List α) :
    ∀ n, n < l.length → (modIdx l n f).getD n d = f (l.getD n d) := by
  induction l with
  | nil => intro n h; simp at h
  | cons a as ih =>
    intro n h
    cases n with
    | zero => simp [modIdx]
    | succ k => simpa [modIdx] using ih k (by simpa using h)

theorem modIdx_getD_ne (f : α → α) (d : α) (l : List α) :
    ∀ n n', n' ≠ n → (modIdx l n f).getD n' d = l.getD n' d := by
  induction l with
  | nil => intro n n' _; rfl
  | cons a as ih =>
    intro n n' h
    cases n with
    | zero =>
      cases n' with
      | zero => exact absurd rfl h
      | succ k => simp [modIdx]
    | succ q =>
      cases n' with
      | zero => simp [modIdx]
      | succ k => simpa [modIdx] using ih q k (fun hh => h (by rw [hh]))

theorem set_getD_self (v d : α) (l : List α) :
    ∀ n, n < l.length → (l.set n v).getD n d = v := by
  induction l with
  | nil => intro n h; simp at h
  | cons a as ih =>
    intro n h
    cases n with
    | zero => simp
    | succ k => simpa using ih k (by simpa using h)

theorem set_getD_ne (v d : α) (l : List α) :
    ∀ n n', n' ≠ n → (l.set n v).getD n' d = l.getD n' d := by
  induction l with
  | nil => intro n n' _; rfl
  | cons a as ih =>
    intro n n' h
    cases n with
    | zero =>
      cases n' with
      | zero => exact absurd rfl h
      | succ k => simp
    | succ q =>
      cases n' with
      | zero => simp
      | succ k => simpa using ih q k (fun hh => h (by rw [hh]))

theorem getD_replicate (a d : α) : ∀ n i : Nat,
    (List.replicate n a).getD i d = if i < n then a else d := by
  intro n
  induction n with
  | zero => intro i; simp
  | succ k ih =>
    intro i
    cases i with
    | zero => simp [List.replicate]
    | succ j => simpa [List.replicate, Nat.succ_lt_succ_iff] using ih j

theorem modIdx_mem (f : α → α) {a : α} {l : List α} :
    ∀ {n}, a ∈ modIdx l n f → a ∈ l ∨ ∃ b ∈ l, a = f b := by
  induction l with
  | nil => intro n h; simp [modIdx] at h
  | cons x xs ih =>
    intro n h
    cases n with
    | zero =>
      rcases List.mem_cons.mp h with h | h
      · exact .inr ⟨x, List.mem_cons_self x xs, h⟩
      · exact .inl (List.mem_cons_of_mem x h)
    | succ k =>
      rcases List.mem_cons.mp h with h | h
      · exact .inl (h ▸ List.mem_cons_self x xs)
      · rcases ih h with h | ⟨b, hb, he⟩
        · exact .inl (List.mem_cons_of_mem x h)
        · exact .inr ⟨b, List.mem_cons_of_mem x hb, he⟩

/-- Shape predicate of the numpy arrays: `(2, lm+1, lm+1)`. -/
def dimsOK (lm : Nat) (g : Grid) : Prop :=
  g.length = 2 ∧ ∀ pl ∈ g, pl.length = lm + 1 ∧ ∀ row ∈ pl, row.length = lm + 1

theorem dimsOK_zeroGrid (lm : Nat) : dimsOK lm (zeroGrid lm) := by
  refine ⟨by simp [zeroGrid], ?_⟩
  intro pl hpl
  rw [zeroGrid, List.mem_replicate] at hpl
  refine ⟨by simp [hpl.2], ?_⟩
  intro row hrow
  rw [hpl.2, List.mem_replicate] at hrow
  simp [hrow.2]

theorem dimsOK_setG {lm : Nat} {g : Grid} (c l m : Nat) (v : Cplx)
    (h : dimsOK lm g) : dimsOK lm (setG g c l m v) := by
  refine ⟨by rw [setG, modIdx_length]; exact h.1, ?_⟩
  intro pl hpl
  rw [setG] at hpl
  have hpl2 : pl ∈ g ∨ ∃ b ∈ g, pl = modIdx b l (fun row => row.set m v) :=
    modIdx_mem _ hpl
  rcases hpl2 with hpl2 | ⟨b, hb, he⟩
  · exact h.2 pl hpl2
  · have hbd := h.2 b hb
    subst he
    refine ⟨by rw [modIdx_length]; exact hbd.1, ?_⟩
    intro row hrow
    rcases modIdx_mem _ hrow with hrow | ⟨r, hr, hre⟩
    · exact hbd.2 row hrow
    · rw [hre, List.length_set]
      exact hbd.2 r hr

theorem getD_mem_of_lt {l : List α} {n : Nat} (d : α) (h : n < l.length) :
    l.getD n d ∈ l := by
  induction l generalizing n with
  | nil => simp at h
  | cons a as ih =>
    cases n with
    | zero => simp
    | succ k => exact List.mem_cons_of_mem a (ih (by simpa using h))

theorem getG_setG_self {lm : Nat} {g : Grid} (c l m : Nat) (v : Cplx)
    (hg : dimsOK lm g) (hc : c < 2) (hl : l ≤ lm) (hm : m ≤ lm) :
    getG (setG g c l m v) c l m = v := by
  have hcl : c < g.length := by rw [hg.1]; exact hc
  have hpl := hg.2 (g.getD c []) (getD_mem_of_lt [] hcl)
  have hll : l < (g.getD c []).length := by rw [hpl.1]; omega
  have hrow := hpl.2 ((g.getD c []).getD l []) (getD_mem_of_lt [] hll)
  have hml : m < ((g.getD c []).getD l []).length := by rw [hrow]; omega
  rw [getG, setG, modIdx_getD_self _ _ _ _ hcl, modIdx_getD_self _ _ _ _ hll,
    set_getD_self _ _ _ _ hml]

theorem modIdx_oob (f : α → α) (l : List α) :
    ∀ n, l.length ≤ n → modIdx l n f = l := by
  induction l with
  | nil => intro n _; rfl
  | cons a as ih =>
    intro n h
    cases n with
    | zero => simp at h
    | succ k => simp [modIdx, ih k (by simpa using h)]

theorem set_oob (v : α) (l : List α) : ∀ n, l.length ≤ n → l.set n v = l := by
  induction l with
  | nil => intro n _; rfl
  | cons a as ih =>
    intro n h
    cases n with
    | zero => simp at h
    | succ k => simp [ih k (by simpa using h)]

theorem getG_setG_ne (g : Grid) (c l m c' l' m' : Nat) (v : Cplx)
    (h : ¬(c' = c ∧ l' = l ∧ m' = m)) :
    getG (setG g c l m v) c' l' m' = getG g c' l' m' := by
  rw [getG, getG, setG]
  by_cases hc : c' = c
  · subst hc
    by_cases hcl : c' < g.length
    · rw [modIdx_getD_self _ _ _ _ hcl]
      by_cases hl : l' = l
      · subst hl
        by_cases hll : l' < (g.getD c' []).length
        · rw [modIdx_getD_self _ _ _ _ hll]
          have hm : m' ≠ m := fun hm => h ⟨rfl, rfl, hm⟩
          rw [set_getD_ne _ _ _ _ _ hm]
        · rw [modIdx_oob _ _ _ (Nat.le_of_not_lt hll)]
      · rw [modIdx_getD_ne _ _ _ _ _ hl]
    · rw [modIdx_oob _ _ _ (Nat.le_of_not_lt hcl)]
  · rw [modIdx_getD_ne _ _ _ _ _ hc]

theorem getG_zeroGrid (lm c l m : Nat) : getG (zeroGrid lm) c l m = ⟨0, 0⟩ := by
  rw [getG, zeroGrid, getD_replicate]
  split
  · rw [getD_replicate]
    split
    · rw [getD_replicate]
      split <;> rfl
    · rfl
  · rfl

/-! Inversion and structure lemmas for the scanning loops. -/

theorem findData_ok (e : ShErr) : ∀ ls line rest,
    findData e ls = .ok (line, rest) →
      _iscomment line = false ∧
      ∃ pre, ls = pre ++ line :: rest ∧ ∀ c ∈ pre, _iscomment c = true := by
  intro ls
  induction ls with
  | nil => intro line rest h; simp [findData] at h
  | cons l ls ih =>
    intro line rest h
    rw [findData] at h
    by_cases hc : _iscomment l = true
    · rw [if_pos hc] at h
      obtain ⟨hnc, pre, hpre, hprec⟩ := ih line rest h
      refine ⟨hnc, l :: pre, by rw [hpre]; rfl, ?_⟩
      intro c hcm
      rcases List.mem_cons.mp hcm with h1 | h1
      · exact h1 ▸ hc
      · exact hprec c h1
    · rw [if_neg hc] at h
      injection h with h
      injection h with h1 h2
      subst h1; subst h2
      exact ⟨Bool.not_eq_true _ |>.mp hc, [], rfl, by intro c hcm; simp at hcm⟩

theorem findData_of_stream (e : ShErr) (pre : List (List Char))
    (hpre : ∀ c ∈ pre, _iscomment c = true) (line : List Char)
    (hline : _iscomment line = false) (rest : List (List Char)) :
    findData e (pre ++ line :: rest) = .ok (line, rest) := by
  induction pre with
  | nil => simp [findData, hline]
  | cons c cs ih =>
    have hc := hpre c (List.mem_cons_self c cs)
    rw [List.cons_append, findData, if_pos hc]
    exact ih (fun x hx => hpre x (List.mem_cons_of_mem c hx))

theorem skipChk_of_stream : ∀ pre rest : List (List Char),
    skipChk pre.length (pre ++ rest) = .ok rest := by
  intro pre
  induction pre with
  | nil => intro rest; rfl
  | cons l ls ih => intro rest; simpa [skipChk] using ih rest

theorem mem_triangle (a b l m : Nat) :
    (l, m) ∈ triangle a b ↔ a ≤ l ∧ l ≤ b ∧ m ≤ l := by
  rw [triangle]
  simp only [List.mem_flatMap, List.mem_map, List.mem_range, List.mem_range'_1,
    Prod.mk.injEq]
  constructor
  · rintro ⟨x, ⟨hax, hxb⟩, m', hm', he1, he2⟩
    subst he1; subst he2
    omega
  · rintro ⟨hal, hlb, hml⟩
    exact ⟨l, ⟨hal, by omega⟩, m, by omega, rfl, rfl⟩

theorem triangle_nodup (a b : Nat) : (triangle a b).Nodup := by
  rw [triangle]
  have h : ∀ L : List Nat, L.Nodup →
      (L.flatMap (fun l => (List.range (l + 1)).map (fun m => (l, m)))).Nodup := by
    intro L
    induction L with
    | nil => intro _; simp
    | cons x xs ih =>
      intro hn
      rw [List.flatMap_cons]
      refine List.Nodup.append ?_ (ih (List.nodup_cons.mp hn).2) ?_
      · exact List.Nodup.map (fun m1 m2 he => by injection he) (List.nodup_range _)
      · intro p hp1 hp2
        rw [List.mem_map] at hp1
        obtain ⟨m1, _, he1⟩ := hp1
        rw [List.mem_flatMap] at hp2
        obtain ⟨y, hy, hp2⟩ := hp2
        rw [List.mem_map] at hp2
        obtain ⟨m2, _, he2⟩ := hp2
        have hx : p.1 = x := by rw [← he1]
        have hyy : p.1 = y := by rw [← he2]
        have hxy : x = y := by rw [← hx, hyy]
        exact (List.nodup_cons.mp hn).1 (hxy ▸ hy)
  exact h _ (List.nodup_range' _ _)

theorem triangle_split (a k b : Nat) (hk : a ≤ k + 1) (hb : k ≤ b) :
    triangle a b = triangle a k ++ triangle (k + 1) b := by
  rw [triangle, triangle, triangle]
  have e1 : b + 1 - (k + 1) = b - k := by omega
  rw [e1]
  have hr : List.range' a (b + 1 - a) =
      List.range' a (k + 1 - a) ++ List.range' (k + 1) (b - k) := by
    have h2 := List.range'_append a (k + 1 - a) (b - k) 1
    rw [Nat.one_mul] at h2
    have ha : a + (k + 1 - a) = k + 1 := by omega
    rw [ha] at h2
    have harg : b + 1 - a = b - k + (k + 1 - a) := by omega
    rw [harg, ← h2]
  rw [hr, List.flatMap_append]

theorem triangle_head (a b : Nat) (h : a ≤ b) :
    ∃ t, triangle a b = (a, 0) :: t := by
  rw [triangle]
  have hn : b + 1 - a = (b - a) + 1 := by omega
  rw [hn, List.range'_succ]
  rw [List.flatMap_cons]
  rw [List.range_succ_eq_map]
  simp only [List.map_cons]
  exact ⟨_, rfl⟩

theorem triangle_empty (a b : Nat) (h : b < a) : triangle a b = [] := by
  rw [triangle]
  have : b + 1 - a = 0 := by omega
  rw [this]
  rfl

theorem readCell_run_noerr (kind : SHKind) (deg ord : Nat)
    (pre : List (List Char)) (hpre : ∀ c ∈ pre, _iscomment c = true)
    (line : List Char) (hline : _iscomment line = false)
    (rest : List (List Char)) (co er : Grid)
    (h0 : pyIntDec ((pySplit line).getD 0 []) = some deg)
    (h1 : pyIntDec ((pySplit line).getD 1 []) = some ord)
    (c0 c1 : Cplx)
    (h2 : parseVal kind ((pySplit line).getD 2 []) = some c0)
    (h3 : parseVal kind ((pySplit line).getD 3 []) = some c1) :
    readCell false kind deg ord ⟨pre ++ line :: rest, co, er⟩ =
      .ok ⟨rest, setG (setG co 0 deg ord c0) 1 deg ord c1, er⟩ := by
  rw [readCell]
  rw [show (⟨pre ++ line :: rest, co, er⟩ : GState).rest = pre ++ line :: rest from rfl]
  rw [findData_of_stream _ pre hpre line hline rest]
  simp only [Bind.bind, Except.bind, h0, h1, h2, h3]
  simp

theorem readCell_run_err (kind : SHKind) (deg ord : Nat)
    (pre : List (List Char)) (hpre : ∀ c ∈ pre, _iscomment c = true)
    (line : List Char) (hline : _iscomment line = false)
    (rest : List (List Char)) (co er : Grid)
    (h0 : pyIntDec ((pySplit line).getD 0 []) = some deg)
    (h1 : pyIntDec ((pySplit line).getD 1 []) = some ord)
    (c0 c1 e0 e1 : Cplx)
    (h2 : parseVal kind ((pySplit line).getD 2 []) = some c0)
    (h3 : parseVal kind ((pySplit line).getD 3 []) = some c1)
    (hlen : 6 ≤ (pySplit line).length)
    (h4 : parseVal kind ((pySplit line).getD 4 []) = some e0)
    (h5 : parseVal kind ((pySplit line).getD 5 []) = some e1) :
    readCell true kind deg ord ⟨pre ++ line :: rest, co, er⟩ =
      .ok ⟨rest, setG (setG co 0 deg ord c0) 1 deg ord c1,
           setG (setG er 0 deg ord e0) 1 deg ord e1⟩ := by
  rw [readCell]
  rw [show (⟨pre ++ line :: rest, co, er⟩ : GState).rest = pre ++ line :: rest from rfl]
  rw [findData_of_stream _ pre hpre line hline rest]
  simp only [Bind.bind, Except.bind, h0, h1, h2, h3, h4, h5]
  simp [Nat.not_lt_of_le hlen]

theorem readCell_run_short (kind : SHKind) (deg ord : Nat)
    (pre : List (List Char)) (hpre : ∀ c ∈ pre, _iscomment c = true)
    (line : List Char) (hline : _iscomment line = false)
    (rest : List (List Char)) (co er : Grid)
    (h0 : pyIntDec ((pySplit line).getD 0 []) = some deg)
    (h1 : pyIntDec ((pySplit line).getD 1 []) = some ord)
    (c0 c1 : Cplx)
    (h2 : parseVal kind ((pySplit line).getD 2 []) = some c0)
    (h3 : parseVal kind ((pySplit line).getD 3 []) = some c1)
    (hlen : (pySplit line).length < 6) :
    readCell true kind deg ord ⟨pre ++ line :: rest, co, er⟩ =
      .error (.insufficientFields line) := by
  rw [readCell]
  rw [show (⟨pre ++ line :: rest, co, er⟩ : GState).rest = pre ++ line :: rest from rfl]
  rw [findData_of_stream _ pre hpre line hline rest]
  simp only [Bind.bind, Except.bind, h0, h1, h2, h3]
  simp [hlen]

theorem readCell_ok_inv (wantErr : Bool) (kind : SHKind) (deg ord : Nat)
    (st st' : GState) (h : readCell wantErr kind deg ord st = .ok st') :
    ∃ line rest, findData (.eofGrid deg ord) st.rest = .ok (line, rest) ∧
      _iscomment line = false ∧
      pyIntDec ((pySplit line).getD 0 []) = some deg ∧
      pyIntDec ((pySplit line).getD 1 []) = some ord ∧
      st'.rest = rest ∧
      ∃ c0 c1, parseVal kind ((pySplit line).getD 2 []) = some c0 ∧
        parseVal kind ((pySplit line).getD 3 []) = some c1 ∧
        st'.co = setG (setG st.co 0 deg ord c0) 1 deg ord c1 ∧
        ((wantErr = false ∧ st'.er = st.er) ∨
         (wantErr = true ∧ 6 ≤ (pySplit line).length ∧
          ∃ e0 e1, parseVal kind ((pySplit line).getD 4 []) = some e0 ∧
            parseVal kind ((pySplit line).getD 5 []) = some e1 ∧
            st'.er = setG (setG st.er 0 deg ord e0) 1 deg ord e1)) := by
  rw [readCell] at h
  cases hfd : findData (.eofGrid deg ord) st.rest with
  | error e => rw [hfd] at h; simp [Bind.bind, Except.bind] at h
  | ok p =>
    obtain ⟨line, rest⟩ := p
    rw [hfd] at h
    have hcm := (findData_ok _ _ _ _ hfd).1
    simp only [Bind.bind, Except.bind] at h
    cases hi0 : pyIntDec ((pySplit line).getD 0 []) with
    | none => rw [hi0] at h; simp at h
    | some lv =>
      rw [hi0] at h
      dsimp only at h
      cases hi1 : pyIntDec ((pySplit line).getD 1 []) with
      | none => rw [hi1] at h; simp at h
      | some mv =>
        rw [hi1] at h
        dsimp only at h
        by_cases hne : deg ≠ lv ∨ ord ≠ mv
        · rw [if_pos hne] at h; simp at h
        · rw [if_neg hne] at h
          push_neg at hne
          obtain ⟨he1, he2⟩ := hne
          subst he1; subst he2
          cases hc0 : parseVal kind ((pySplit line).getD 2 []) with
          | none => rw [hc0] at h; simp at h
          | some c0 =>
            rw [hc0] at h
            dsimp only at h
            cases hc1 : parseVal kind ((pySplit line).getD 3 []) with
            | none => rw [hc1] at h; simp at h
            | some c1 =>
              rw [hc1] at h
              dsimp only at h
              cases wantErr with
              | false =>
                rw [if_neg (by simp)] at h
                injection h with h
                refine ⟨line, rest, rfl, hcm, hi0, hi1, by rw [← h],
                  c0, c1, hc0, hc1, by rw [← h], ?_⟩
                exact .inl ⟨rfl, by rw [← h]⟩
              | true =>
                rw [if_pos rfl] at h
                by_cases hlen : (pySplit line).length < 6
                · rw [if_pos hlen] at h; simp at h
                · rw [if_neg hlen] at h
                  cases he0 : parseVal kind ((pySplit line).getD 4 []) with
                  | none => rw [he0] at h; simp at h
                  | some e0 =>
                    rw [he0] at h
                    dsimp only at h
                    cases he1 : parseVal kind ((pySplit line).getD 5 []) with
                    | none => rw [he1] at h; simp at h
                    | some e1 =>
                      rw [he1] at h
                      dsimp only at h
                      injection h with h
                      refine ⟨line, rest, rfl, hcm, hi0, hi1, by rw [← h],
                        c0, c1, hc0, hc1, by rw [← h], ?_⟩
                      exact .inr ⟨rfl, Nat.le_of_not_lt hlen, e0, e1, he0, he1, by rw [← h]⟩

/-! Invariants of the grid-reading loop over arbitrary streams. -/

theorem readPairs_dims (wantErr : Bool) (kind : SHKind) (lm : Nat) :
    ∀ ps (st st' : GState), readPairs wantErr kind ps st = .ok st' →
      (dimsOK lm st.co → dimsOK lm st'.co) ∧ (dimsOK lm st.er → dimsOK lm st'.er) := by
  intro ps
  induction ps with
  | nil =>
    intro st st' h
    injection h with h
    subst h
    exact ⟨id, id⟩
  | cons p ps ih =>
    intro st st' h
    rw [readPairs] at h
    simp only [Bind.bind, Except.bind] at h
    cases hc : readCell wantErr kind p.1 p.2 st with
    | error e => rw [hc] at h; simp at h
    | ok st2 =>
      rw [hc] at h
      dsimp only at h
      obtain ⟨hco, her⟩ := ih st2 st' h
      obtain ⟨line, rest, _, _, _, _, _, c0, c1, _, _, hco2, her2⟩ :=
        readCell_ok_inv _ _ _ _ _ _ hc
      constructor
      · intro hd
        exact hco (by rw [hco2]; exact dimsOK_setG _ _ _ _ (dimsOK_setG _ _ _ _ hd))
      · intro hd
        apply her
        rcases her2 with ⟨_, he⟩ | ⟨_, _, e0, e1, _, _, he⟩
        · rw [he]; exact hd
        · rw [he]; exact dimsOK_setG _ _ _ _ (dimsOK_setG _ _ _ _ hd)

theorem readPairs_unwritten (wantErr : Bool) (kind : SHKind) :
    ∀ ps (st st' : GState), readPairs wantErr kind ps st = .ok st' →
      ∀ c l m, (l, m) ∉ ps →
        getG st'.co c l m = getG st.co c l m ∧
        getG st'.er c l m = getG st.er c l m := by
  intro ps
  induction ps with
  | nil =>
    intro st st' h c l m _
    injection h with h
    subst h
    exact ⟨rfl, rfl⟩
  | cons p ps ih =>
    intro st st' h c l m hnm
    rw [readPairs] at h
    simp only [Bind.bind, Except.bind] at h
    cases hc : readCell wantErr kind p.1 p.2 st with
    | error e => rw [hc] at h; simp at h
    | ok st2 =>
      rw [hc] at h
      dsimp only at h
      have hp : (l, m) ≠ p := fun he => hnm (he ▸ List.mem_cons_self p ps)
      have hps : (l, m) ∉ ps := fun hm => hnm (List.mem_cons_of_mem p hm)
      have hlm : ¬(l = p.1 ∧ m = p.2) := by
        intro ⟨h1, h2⟩
        exact hp (Prod.ext h1 h2)
      obtain ⟨h1, h2⟩ := ih st2 st' h c l m hps
      obtain ⟨line, rest, _, _, _, _, _, c0, c1, _, _, hco2, her2⟩ :=
        readCell_ok_inv _ _ _ _ _ _ hc
      constructor
      · rw [h1, hco2, getG_setG_ne _ _ _ _ _ _ _ _ (fun hh => hlm ⟨hh.2.1, hh.2.2⟩),
          getG_setG_ne _ _ _ _ _ _ _ _ (fun hh => hlm ⟨hh.2.1, hh.2.2⟩)]
      · rw [h2]
        rcases her2 with ⟨_, he⟩ | ⟨_, _, e0, e1, _, _, he⟩
        · rw [he]
        · rw [he, getG_setG_ne _ _ _ _ _ _ _ _ (fun hh => hlm ⟨hh.2.1, hh.2.2⟩),
            getG_setG_ne _ _ _ _ _ _ _ _ (fun hh => hlm ⟨hh.2.1, hh.2.2⟩)]

theorem readPairs_values (wantErr : Bool) (kind : SHKind) (lm : Nat) :
    ∀ ps (st st' : GState), readPairs wantErr kind ps st = .ok st' →
      ps.Nodup → dimsOK lm st.co → dimsOK lm st.er →
      (∀ p ∈ ps, p.1 ≤ lm ∧ p.2 ≤ lm) →
      ∀ p ∈ ps, ∃ toks : List (List Char), 4 ≤ toks.length ∧
        pyIntDec (toks.getD 0 []) = some p.1 ∧
        pyIntDec (toks.getD 1 []) = some p.2 ∧
        (∃ c0, parseVal kind (toks.getD 2 []) = some c0 ∧ getG st'.co 0 p.1 p.2 = c0) ∧
        (∃ c1, parseVal kind (toks.getD 3 []) = some c1 ∧ getG st'.co 1 p.1 p.2 = c1) ∧
        (wantErr = true → 6 ≤ toks.length ∧
          (∃ e0, parseVal kind (toks.getD 4 []) = some e0 ∧ getG st'.er 0 p.1 p.2 = e0) ∧
          (∃ e1, parseVal kind (toks.getD 5 []) = some e1 ∧ getG st'.er 1 p.1 p.2 = e1)) := by
  intro ps
  induction ps with
  | nil => intro st st' _ _ _ _ _ p hp; simp at hp
  | cons q ps ih =>
    intro st st' h hnd hdco hder hbd p hp
    rw [readPairs] at h
    simp only [Bind.bind, Except.bind] at h
    cases hc : readCell wantErr kind q.1 q.2 st with
    | error e => rw [hc] at h; simp at h
    | ok st2 =>
      rw [hc] at h
      dsimp only at h
      obtain ⟨line, rest, _, hcm, hi0, hi1, _, c0, c1, hc0, hc1, hco2, her2⟩ :=
        readCell_ok_inv _ _ _ _ _ _ hc
      have hlen4 := (iscomment_false_iff line).mp hcm
      have hqbd := hbd q (List.mem_cons_self q ps)
      have hdco2 : dimsOK lm st2.co := by
        rw [hco2]; exact dimsOK_setG _ _ _ _ (dimsOK_setG _ _ _ _ hdco)
      have hder2 : dimsOK lm st2.er := by
        rcases her2 with ⟨_, he⟩ | ⟨_, _, e0, e1, _, _, he⟩
        · rw [he]; exact hder
        · rw [he]; exact dimsOK_setG _ _ _ _ (dimsOK_setG _ _ _ _ hder)
      rcases List.mem_cons.mp hp with hpq | hpin
      · subst hpq
        have hnotin : (p.1, p.2) ∉ ps := by
          intro hin
          exact (List.nodup_cons.mp hnd).1 (by simpa using hin)
        obtain ⟨hu1, hu2⟩ := readPairs_unwritten wantErr kind ps st2 st' h 0 p.1 p.2 hnotin
        obtain ⟨hu3, hu4⟩ := readPairs_unwritten wantErr kind ps st2 st' h 1 p.1 p.2 hnotin
        refine ⟨pySplit line, hlen4.1, hi0, hi1, ⟨c0, hc0, ?_⟩, ⟨c1, hc1, ?_⟩, ?_⟩
        · rw [hu1, hco2,
            getG_setG_ne _ _ _ _ _ _ _ _ (fun hh => by omega),
            getG_setG_self _ _ _ _ hdco (by omega) hqbd.1 hqbd.2]
        · rw [hu3, hco2, getG_setG_self _ _ _ _
            (dimsOK_setG _ _ _ _ hdco) (by omega) hqbd.1 hqbd.2]
        · intro hwe
          rcases her2 with ⟨hef, _⟩ | ⟨_, hlen6, e0, e1, he0, he1, he⟩
          · rw [hwe] at hef; exact absurd hef (by simp)
          · refine ⟨hlen6, ⟨e0, he0, ?_⟩, ⟨e1, he1, ?_⟩⟩
            · rw [hu2, he,
                getG_setG_ne _ _ _ _ _ _ _ _ (fun hh => by omega),
                getG_setG_self _ _ _ _ hder (by omega) hqbd.1 hqbd.2]
            · rw [hu4, he, getG_setG_self _ _ _ _
                (dimsOK_setG _ _ _ _ hder) (by omega) hqbd.1 hqbd.2]
      · exact ih st2 st' h (List.nodup_cons.mp hnd).2 hdco2 hder2
          (fun r hr => hbd r (List.mem_cons_of_mem q hr)) p hpin

/-- Inversion of a successful `shread` call into its three passes. -/
theorem shread_ok_inv (content : List Char) (lmax : Option Nat) (e hf : Bool)
    (skip : Nat) (res : ShResult) (hok : shread content lmax e hf skip = .ok res) :
    ∃ lf kind hdr lstart st,
      shreadTail content = .ok (lf, kind) ∧
      pass2 (toLines content) hf skip = .ok (hdr, lstart) ∧
      readPairs e kind (triangle lstart (capOf lmax lf))
        ⟨(if hf then ((toLines content).drop skip).drop 1
          else (toLines content).drop skip),
         zeroGrid (capOf lmax lf), zeroGrid (capOf lmax lf)⟩ = .ok st ∧
      res = ⟨st.co, if e then some st.er else none, hdr, capOf lmax lf⟩ := by
  rw [shread] at hok
  simp only [Bind.bind, Except.bind] at hok
  cases ht : shreadTail content with
  | error er => rw [ht] at hok; simp at hok
  | ok tl =>
    rw [ht] at hok
    dsimp only at hok
    cases hp2 : pass2 (toLines content) hf skip with
    | error er => rw [hp2] at hok; simp at hok
    | ok pr =>
      rw [hp2] at hok
      dsimp only at hok
      cases hrp : readPairs e tl.2 (triangle pr.2 (capOf lmax tl.1))
          ⟨(if hf then ((toLines content).drop skip).drop 1
            else (toLines content).drop skip),
           zeroGrid (capOf lmax tl.1), zeroGrid (capOf lmax tl.1)⟩ with
      | error er => rw [hrp] at hok; simp at hok
      | ok st =>
        rw [hrp] at hok
        dsimp only at hok
        injection hok with hok
        exact ⟨tl.1, tl.2, pr.1, pr.2, st, rfl, rfl, hrp, by rw [← hok]⟩

theorem getD_oob (d : α) (l : List α) : ∀ n, l.length ≤ n → l.getD n d = d := by
  induction l with
  | nil => intro n _; cases n <;> rfl
  | cons a as ih =>
    intro n h
    cases n with
    | zero => simp at h
    | succ k => simpa using ih k (by simpa using h)

theorem getG_oob_c {lm : Nat} {g : Grid} (hg : dimsOK lm g) (c l m : Nat)
    (hc : 2 ≤ c) : getG g c l m = ⟨0, 0⟩ := by
  have h1 : g.getD c [] = [] := getD_oob _ _ _ (by rw [hg.1]; exact hc)
  rw [getG, h1]
  rfl

/-- Claim C2: on every successful call, the coefficient array (and the error
array when requested) has shape `(2, lmaxOut+1, lmaxOut+1)`; writing only
happens at cells with `lstart ≤ l ≤ lmaxOut` and `m ≤ l` in components 0 and
1, each such cell holding the two values parsed (under the file kind) from
the words of a data line whose first two words are exactly `l` and `m`; and
every other cell — in particular any cell with order above degree, degree
below `lstart` or component at least 2 — is zero. -/
theorem C2_grid_invariants (content : List Char) (lmax : Option Nat)
    (e hf : Bool) (skip : Nat) (res : ShResult)
    (hok : shread content lmax e hf skip = .ok res) :
    (res.co.length = 2 ∧
     (∀ pl ∈ res.co, pl.length = res.lmaxout + 1 ∧
        ∀ row ∈ pl, row.length = res.lmaxout + 1)) ∧
    (e = false → res.er = none) ∧
    (e = true → ∃ eg, res.er = some eg ∧ eg.length = 2 ∧
      ∀ pl ∈ eg, pl.length = res.lmaxout + 1 ∧
        ∀ row ∈ pl, row.length = res.lmaxout + 1) ∧
    ∃ lf kind hdr lstart,
      shreadTail content = .ok (lf, kind) ∧
      pass2 (toLines content) hf skip = .ok (hdr, lstart) ∧
      res.lmaxout = capOf lmax lf ∧
      (∀ c l m, ¬(c < 2 ∧ lstart ≤ l ∧ l ≤ res.lmaxout ∧ m ≤ l) →
          getG res.co c l m = ⟨0, 0⟩ ∧
          ∀ eg, res.er = some eg → getG eg c l m = ⟨0, 0⟩) ∧
      (∀ l m, lstart ≤ l → l ≤ res.lmaxout → m ≤ l →
        ∃ toks : List (List Char), 4 ≤ toks.length ∧
          pyIntDec (toks.getD 0 []) = some l ∧
          pyIntDec (toks.getD 1 []) = some m ∧
          (∃ c0, parseVal kind (toks.getD 2 []) = some c0 ∧ getG res.co 0 l m = c0) ∧
          (∃ c1, parseVal kind (toks.getD 3 []) = some c1 ∧ getG res.co 1 l m = c1) ∧
          (∀ eg, res.er = some eg →
            (∃ e0, parseVal kind (toks.getD 4 []) = some e0 ∧ getG eg 0 l m = e0) ∧
            (∃ e1, parseVal kind (toks.getD 5 []) = some e1 ∧ getG eg 1 l m = e1))) := by
  obtain ⟨lf, kind, hdr, lstart, st, ht, hp2, hrp, hres⟩ :=
    shread_ok_inv content lmax e hf skip res hok
  set cap := capOf lmax lf with hcap
  have hlmx : res.lmaxout = cap := by rw [hres]
  have hdimsC : dimsOK cap st.co :=
    (readPairs_dims e kind cap _ _ _ hrp).1 (dimsOK_zeroGrid cap)
  have hdimsE : dimsOK cap st.er :=
    (readPairs_dims e kind cap _ _ _ hrp).2 (dimsOK_zeroGrid cap)
  have hco : res.co = st.co := by rw [hres]
  have her : res.er = if e = true then some st.er else none := by rw [hres]
  have hbdtri : ∀ p ∈ triangle lstart cap, p.1 ≤ cap ∧ p.2 ≤ cap := by
    intro p hp
    obtain ⟨p1, p2⟩ := p
    have := (mem_triangle lstart cap p1 p2).mp hp
    exact ⟨this.2.1, by omega⟩
  refine ⟨?_, ?_, ?_, lf, kind, hdr, lstart, ht, hp2, hlmx, ?_, ?_⟩
  · rw [hco, hlmx]
    exact ⟨hdimsC.1, hdimsC.2⟩
  · intro he; rw [her, he]; rfl
  · intro he
    rw [her, he]
    exact ⟨st.er, rfl, hdimsE.1, by rw [hlmx]; exact hdimsE.2⟩
  · intro c l m hout
    have hernone : ∀ eg, res.er = some eg → eg = st.er := by
      intro eg heg
      rw [her] at heg
      by_cases he : e = true
      · rw [if_pos he] at heg; injection heg with heg; rw [heg]
      · rw [if_neg he] at heg; cases heg
    by_cases hc2 : 2 ≤ c
    · refine ⟨by rw [hco]; exact getG_oob_c hdimsC c l m hc2, ?_⟩
      intro eg heg
      rw [hernone eg heg]
      exact getG_oob_c hdimsE c l m hc2
    · have hnm : (l, m) ∉ triangle lstart cap := by
        intro hm
        have := (mem_triangle lstart cap l m).mp hm
        rw [hlmx] at hout
        exact hout ⟨by omega, this.1, this.2.1, this.2.2⟩
      obtain ⟨h1, h2⟩ := readPairs_unwritten e kind _ _ _ hrp c l m hnm
      refine ⟨by rw [hco, h1]; exact getG_zeroGrid cap c l m, ?_⟩
      intro eg heg
      rw [hernone eg heg, h2]
      exact getG_zeroGrid cap c l m
  · intro l m hls hle hml
    have hmem : (l, m) ∈ triangle lstart cap :=
      (mem_triangle lstart cap l m).mpr ⟨hls, by rw [← hlmx]; exact hle, hml⟩
    obtain ⟨toks, h4, hi0, hi1, ⟨c0, hc0, hg0⟩, ⟨c1, hc1, hg1⟩, herr⟩ :=
      readPairs_values e kind cap _ _ _ hrp (triangle_nodup _ _)
        (dimsOK_zeroGrid cap) (dimsOK_zeroGrid cap) hbdtri (l, m) hmem
    refine ⟨toks, h4, hi0, hi1, ⟨c0, hc0, by rw [hco]; exact hg0⟩,
      ⟨c1, hc1, by rw [hco]; exact hg1⟩, ?_⟩
    intro eg heg
    have he : e = true := by
      rw [her] at heg
      by_cases he : e = true
      · exact he
      · rw [if_neg he] at heg; cases heg
    have hegst : eg = st.er := by
      rw [her, if_pos he] at heg
      injection heg with heg
      rw [heg]
    obtain ⟨_, ⟨e0, he0, hge0⟩, ⟨e1, he1, hge1⟩⟩ := herr he
    exact ⟨⟨e0, he0, by rw [hegst]; exact hge0⟩, ⟨e1, he1, by rw [hegst]; exact hge1⟩⟩

/-! Rendered files: a list of line contents (each free of line breaks), each
terminated by a line break when rendered. -/

/-- A line content with no embedded line break. -/
def nlFree (l : List Char) : Bool := l.all (fun c => c ≠ '\n')

/-- Render line contents into file characters, terminating each line. -/
def renderLines : List (List Char) → List Char
  | [] => []
  | l :: ls => l ++ '\n' :: renderLines ls

theorem renderLines_append (xs ys : List (List Char)) :
    renderLines (xs ++ ys) = renderLines xs ++ renderLines ys := by
  induction xs with
  | nil => rfl
  | cons l ls ih => simp [renderLines, ih]

theorem renderLines_length_ge (xs : List (List Char)) :
    xs.length ≤ (renderLines xs).length := by
  induction xs with
  | nil => simp
  | cons l ls ih => simp [renderLines]; omega

theorem renderLines_ends (xs : List (List Char)) (h : xs ≠ []) :
    ∃ q : List Char, renderLines xs = q ++ ['\n'] := by
  induction xs with
  | nil => exact absurd rfl h
  | cons l ls ih =>
    cases hls : ls with
    | nil => exact ⟨l, by simp [renderLines]⟩
    | cons a as =>
      obtain ⟨q, hq⟩ := ih (by simp [hls])
      rw [← hls]
      exact ⟨l ++ '\n' :: q, by simp [renderLines, hq]⟩

/-- Splitting the file content back into readline-lines. -/
theorem toLines_line (l : List Char) (hl : nlFree l = true) (rest : List Char) :
    toLines (l ++ '\n' :: rest) = (l ++ ['\n']) :: toLines rest := by
  induction l with
  | nil => simp [toLines]
  | cons c cs ih =>
    have hc : (c = '\n') = False := by
      simp only [nlFree, List.all_cons, Bool.and_eq_true] at hl
      simpa using hl.1
    rw [List.cons_append, toLines, if_neg (by simp [hc])]
    rw [ih (by simp only [nlFree, List.all_cons, Bool.and_eq_true] at hl; exact hl.2)]
    simp

theorem toLines_render (ls : List (List Char)) (h : ∀ l ∈ ls, nlFree l = true) :
    toLines (renderLines ls) = ls.map (· ++ ['\n']) := by
  induction ls with
  | nil => rfl
  | cons l ls ih =>
    rw [renderLines, toLines_line l (h l (List.mem_cons_self l ls)),
      ih (fun x hx => h x (List.mem_cons_of_mem l hx)), List.map_cons]

theorem toLines_render_blanks (ls : List (List Char)) (j : Nat)
    (h : ∀ l ∈ ls, nlFree l = true) :
    toLines (renderLines ls ++ List.replicate j '\n') =
      ls.map (· ++ ['\n']) ++ List.replicate j ['\n'] := by
  induction ls with
  | nil =>
    simp only [renderLines, List.map_nil, List.nil_append]
    induction j with
    | zero => rfl
    | succ k ihj => simp [List.replicate, toLines, ihj]
  | cons l ls ih =>
    rw [renderLines, List.append_assoc, List.cons_append]
    rw [toLines_line l (h l (List.mem_cons_self l ls))]
    rw [ih (fun x hx => h x (List.mem_cons_of_mem l hx))]
    simp

/-! Joined whitespace-separated tokens and their round trip through
`pySplit`. -/

/-- A well-formed token: nonempty, free of whitespace. -/
def tokWF (t : List Char) : Bool := !t.isEmpty && t.all (fun c => !pySpace c)

/-- Join tokens with single spaces (the canonical data-line body). -/
def joinToks : List (List Char) → List Char
  | [] => []
  | [t] => t
  | t :: ts => t ++ ' ' :: joinToks ts

theorem pySplitAux_token (t : List Char) (ht : t.all (fun c => !pySpace c) = true) :
    ∀ r acc, pySplitAux (t ++ r) acc = pySplitAux r (t.reverse ++ acc) := by
  induction t with
  | nil => intro r acc; rfl
  | cons c cs ih =>
    intro r acc
    simp only [List.all_cons, Bool.and_eq_true] at ht
    rw [List.cons_append, pySplitAux, if_neg (by simp [Bool.not_eq_true'] at ht; simp [ht.1])]
    rw [ih ht.2 r (c :: acc)]
    simp

theorem pySplitAux_space_append (c : Char) (hc : pySpace c = true) (l : List Char) :
    ∀ acc, pySplitAux (l ++ [c]) acc = pySplitAux l acc := by
  induction l with
  | nil =>
    intro acc
    rw [List.nil_append]
    by_cases h : acc.isEmpty = true
    · simp [pySplitAux, hc, h]
    · simp [pySplitAux, hc, h]
  | cons a as ih =>
    intro acc
    by_cases ha : pySpace a = true
    · by_cases h : acc.isEmpty = true
      · simp only [List.cons_append, pySplitAux, if_pos ha, if_pos h]
        exact ih []
      · simp only [List.cons_append, pySplitAux, if_pos ha, if_neg h,
          List.append_eq]
        rw [ih []]
    · simp only [List.cons_append, pySplitAux, if_neg ha]
      exact ih (a :: acc)

theorem pySplit_trailing_space (c : Char) (hc : pySpace c = true) (l : List Char) :
    pySplit (l ++ [c]) = pySplit l := by
  rw [pySplit, pySplit, pySplitAux_space_append c hc l]

theorem pySplit_join (ts : List (List Char)) (h : ∀ t ∈ ts, tokWF t = true) :
    pySplit (joinToks ts) = ts := by
  induction ts with
  | nil => rfl
  | cons t ts ih =>
    have htt := h t (List.mem_cons_self t ts)
    rw [tokWF, Bool.and_eq_true] at htt
    have htne : t ≠ [] := by
      intro hh
      rw [hh] at htt
      simp at htt
    cases hts : ts with
    | nil =>
      subst hts
      have h1 := pySplitAux_token t htt.2 [] []
      rw [List.append_nil] at h1
      rw [joinToks, pySplit, h1, pySplitAux]
      rw [if_neg (by simp [List.isEmpty_eq_true, htne])]
      simp
    | cons a as =>
      subst hts
      have hj : joinToks (t :: a :: as) = t ++ ' ' :: joinToks (a :: as) := rfl
      rw [hj, pySplit, pySplitAux_token t htt.2 (' ' :: joinToks (a :: as)) []]
      rw [pySplitAux, if_pos (by rfl)]
      rw [if_neg (by simp [List.isEmpty_eq_true, htne])]
      have hit := ih (fun x hx => h x (List.mem_cons_of_mem t hx))
      rw [pySplit] at hit
      rw [hit]
      simp

/-! The backward scan over a rendered file. -/

theorem getC_append_right (A B : List Char) (i : Nat) :
    getC (A ++ B) (A.length + i) = getC B i := by
  rw [getC, getC, List.getElem?_append_right (by omega)]
  congr 1
  omega

theorem getC_append_left (A B : List Char) (i : Nat) (h : i < A.length) :
    getC (A ++ B) i = getC A i := by
  rw [getC, getC, List.getElem?_append_left h]

theorem findNL_nl (b : List Char) (p : Nat) (h : getC b p = some '\n') :
    findNL b p = .ok (p + 1) := by
  match p with
  | 0 => rw [findNL, h]; rfl
  | 1 => rw [findNL, h]; rfl
  | q + 2 => rw [findNL, h]; rfl

theorem findNL_step (b : List Char) (p : Nat) (c : Char)
    (h : getC b (p + 1) = some c) (hc : c ≠ '\n') :
    findNL b (p + 1) = findNL b p := by
  match p with
  | 0 =>
    show findNL b 1 = findNL b 0
    conv_lhs => rw [findNL, show getC b 1 = some c from h]
    dsimp only
    rw [if_neg hc]
  | q + 1 =>
    show findNL b (q + 2) = findNL b (q + 1)
    conv_lhs => rw [findNL, show getC b (q + 2) = some c from h]
    dsimp only
    rw [if_neg hc]

theorem findNL_zero_fail (b : List Char) (c : Char)
    (h : getC b 0 = some c) (hc : c ≠ '\n') :
    findNL b 0 = .error .seekError := by
  rw [findNL, h]
  dsimp only
  rw [if_neg hc]

theorem findNL_found (A l E : List Char) (hl : nlFree l = true) :
    ∀ k, k ≤ l.length →
      findNL (A ++ '\n' :: (l ++ E)) (A.length + k) = .ok (A.length + 1) := by
  intro k
  induction k with
  | zero =>
    intro _
    rw [Nat.add_zero]
    apply findNL_nl
    have h1 := getC_append_right A ('\n' :: (l ++ E)) 0
    rw [Nat.add_zero] at h1
    rw [h1, getC, List.getElem?_cons_zero]
  | succ k ih =>
    intro hk
    have hlt : k < l.length := by omega
    have hch : getC (A ++ '\n' :: (l ++ E)) (A.length + k + 1) = some l[k] := by
      have h1 := getC_append_right A ('\n' :: (l ++ E)) (k + 1)
      rw [← Nat.add_assoc] at h1
      rw [h1, getC, List.getElem?_cons_succ, List.getElem?_append_left hlt,
        List.getElem?_eq_getElem hlt]
    have hcnl : l[k] ≠ '\n' := by
      intro he
      have := List.all_eq_true.mp hl _ (he ▸ List.getElem_mem hlt)
      simp at this
    rw [show A.length + (k + 1) = (A.length + k) + 1 by omega]
    rw [findNL_step _ _ l[k] hch hcnl]
    exact ih (by omega)

theorem findNL_none (l E : List Char) (hl : nlFree l = true) :
    ∀ k, k < l.length → findNL (l ++ E) k = .error .seekError := by
  intro k
  induction k with
  | zero =>
    intro hk
    have h0 : getC (l ++ E) 0 = some l[0] := by
      rw [getC, List.getElem?_append_left hk, List.getElem?_eq_getElem hk]
    apply findNL_zero_fail _ l[0] h0
    intro he
    have := List.all_eq_true.mp hl _ (he ▸ List.getElem_mem hk)
    simp at this
  | succ k ih =>
    intro hk
    have hch : getC (l ++ E) (k + 1) = some l[k + 1] := by
      rw [getC, List.getElem?_append_left hk, List.getElem?_eq_getElem hk]
    have hcnl : l[k + 1] ≠ '\n' := by
      intro he
      have := List.all_eq_true.mp hl _ (he ▸ List.getElem_mem hk)
      simp at this
    rw [findNL_step _ _ l[k + 1] hch hcnl]
    exact ih (by omega)

theorem takeLine_line (l : List Char) (hl : nlFree l = true) (rest : List Char) :
    takeLine (l ++ '\n' :: rest) = l ++ ['\n'] := by
  induction l with
  | nil => simp [takeLine]
  | cons c cs ih =>
    simp only [nlFree, List.all_cons, Bool.and_eq_true] at hl
    rw [List.cons_append, takeLine, if_neg (by simpa using hl.1)]
    rw [ih hl.2]
    simp

theorem lineAt_render (A l E : List Char) (hl : nlFree l = true) :
    lineAt (A ++ '\n' :: (l ++ '\n' :: E)) (A.length + 1) = l ++ ['\n'] := by
  rw [lineAt]
  have hs : A ++ '\n' :: (l ++ '\n' :: E) = (A ++ ['\n']) ++ (l ++ '\n' :: E) := by
    simp
  rw [hs, List.drop_left' (by simp)]
  exact takeLine_line l hl E

/-- Process one line of the backward loop: from any position on the line or
its preceding break, the loop finds the line break, reads the line, seeks
back before it (raising when the prefix is empty), and either stops (data
line) or continues two before the line's start. -/
theorem tailLoop_step (P l E : List Char) (fuel : Nat) (hl : nlFree l = true)
    (k : Nat) (hk : k ≤ l.length) :
    tailLoopF (P ++ '\n' :: (l ++ '\n' :: E)) (fuel + 1) (P.length + k) =
      if P.length + 1 < 2 then .error .seekError
      else if _iscomment (l ++ ['\n']) then
        tailLoopF (P ++ '\n' :: (l ++ '\n' :: E)) fuel (P.length - 1)
      else .ok (l ++ ['\n']) := by
  rw [tailLoopF]
  rw [findNL_found P l ('\n' :: E) hl k hk]
  dsimp only
  rw [lineAt_render P l E hl]
  have hsub : P.length + 1 - 2 = P.length - 1 := by omega
  rw [hsub]

/-- Skipping a block of comment lines in the backward loop. -/
theorem tailLoop_comments : ∀ (cs : List (List Char)) (P E : List Char) (fuel : Nat),
    1 ≤ P.length →
    (∀ c ∈ cs, nlFree c = true ∧ _iscomment (c ++ ['\n']) = true) →
    tailLoopF (P ++ '\n' :: (renderLines cs ++ E)) (fuel + cs.length)
      (P.length + (renderLines cs).length - 1) =
    tailLoopF (P ++ '\n' :: (renderLines cs ++ E)) fuel (P.length - 1) := by
  intro cs
  induction cs with
  | nil =>
    intro P E fuel hP _
    simp only [renderLines, List.nil_append, List.length_nil, Nat.add_zero]
  | cons c cs ih =>
    intro P E fuel hP hcs
    have hc := hcs c (List.mem_cons_self c cs)
    have hb : P ++ '\n' :: (renderLines (c :: cs) ++ E) =
        (P ++ '\n' :: c) ++ '\n' :: (renderLines cs ++ E) := by
      simp [renderLines]
    have hpos : P.length + (renderLines (c :: cs)).length - 1 =
        (P ++ '\n' :: c).length + (renderLines cs).length - 1 := by
      simp only [renderLines, List.length_append, List.length_cons]
      omega
    have hfuel : fuel + (c :: cs).length = (fuel + 1) + cs.length := by
      simp only [List.length_cons]
      omega
    rw [hb, hpos, hfuel,
      ih (P ++ '\n' :: c) E (fuel + 1) (by simp only [List.length_append, List.length_cons]; omega)
        (fun x hx => hcs x (List.mem_cons_of_mem c hx))]
    have hlen : (P ++ '\n' :: c).length - 1 = P.length + c.length := by
      simp only [List.length_append, List.length_cons]
      omega
    rw [hlen]
    have hb2 : (P ++ '\n' :: c) ++ '\n' :: (renderLines cs ++ E) =
        P ++ '\n' :: (c ++ '\n' :: (renderLines cs ++ E)) := by
      simp
    rw [hb2, tailLoop_step P c (renderLines cs ++ E) fuel hc.1 c.length (le_refl _)]
    rw [if_neg (by omega), if_pos hc.2]

theorem stripNL_no_nl (b : List Char) (p : Nat) (h : ¬getC b p = some '\n') :
    stripNL b p = .ok (p + 1) := by
  cases p with
  | zero => rw [stripNL, if_neg h]
  | succ q => rw [stripNL, if_neg h]

theorem stripNL_above (b : List Char) (q : Nat) (hq : ¬getC b q = some '\n') :
    ∀ k, (∀ i, q < i → i ≤ q + k → getC b i = some '\n') →
      stripNL b (q + k) = .ok (q + 1) := by
  intro k
  induction k with
  | zero => intro _; exact stripNL_no_nl b q hq
  | succ k ih =>
    intro hab
    have hnl : getC b (q + k + 1) = some '\n' := hab _ (by omega) (by omega)
    have hstep : stripNL b (q + (k + 1)) = stripNL b (q + k) := by
      rw [show q + (k + 1) = (q + k) + 1 by omega, stripNL, if_pos hnl]
    rw [hstep]
    exact ih (fun i h1 h2 => hab i h1 (by omega))

/-- Reduce `lastLineScan` on a file whose last line has nonempty content `L`
(free of line breaks) followed by `j` blank lines: stripping the trailing
line breaks stops right after the last character of `L`, and the backward
loop starts two positions before that, with the file length as fuel. -/
theorem lastLineScan_reduce (C0 L : List Char) (j : Nat) (hLne : L ≠ [])
    (hLnl : nlFree L = true) (hs : 2 ≤ C0.length + L.length) :
    lastLineScan (C0 ++ ((L ++ ['\n']) ++ List.replicate j '\n')) =
      tailLoopF (C0 ++ ((L ++ ['\n']) ++ List.replicate j '\n'))
        (C0 ++ ((L ++ ['\n']) ++ List.replicate j '\n')).length
        (C0.length + L.length - 2) := by
  have hLlen : 1 ≤ L.length := List.length_pos.mpr hLne
  set b := C0 ++ ((L ++ ['\n']) ++ List.replicate j '\n') with hbdef
  have hblen : b.length = C0.length + L.length + 1 + j := by
    rw [hbdef]; simp; omega
  have hqchar : getC b (C0.length + L.length - 1) = some (L.getLast hLne) := by
    have h1 : C0.length + L.length - 1 = C0.length + (L.length - 1) := by omega
    rw [h1, hbdef, getC_append_right, getC,
      List.getElem?_append_left (by simp; omega),
      List.getElem?_append_left (by omega),
      List.getElem?_eq_getElem (by omega)]
    congr 1
    exact (List.getLast_eq_getElem L hLne).symm
  have hqnl : ¬getC b (C0.length + L.length - 1) = some '\n' := by
    rw [hqchar]
    intro hh
    injection hh with hh
    have := List.all_eq_true.mp hLnl _ (hh ▸ List.getLast_mem hLne)
    simp at this
  have habove : ∀ i, C0.length + L.length - 1 < i →
      i ≤ C0.length + L.length - 1 + j → getC b i = some '\n' := by
    intro i h1 h2
    have h3 : i = C0.length + (i - C0.length) := by omega
    rw [hbdef, h3, getC_append_right]
    by_cases h4 : i - C0.length = L.length
    · rw [h4, getC, List.getElem?_append_left (by simp),
        List.getElem?_append_right (by omega)]
      simp
    · rw [getC, List.getElem?_append_right (by simp; omega),
        List.getElem?_replicate, if_pos (by simp; omega)]
  have hstrip : stripNL b (b.length - 2) = .ok (C0.length + L.length) := by
    have he : b.length - 2 = (C0.length + L.length - 1) + j := by omega
    rw [he, stripNL_above b _ hqnl j habove]
    congr 1
    omega
  rw [lastLineScan, if_neg (by omega), hstrip]
  dsimp only
  rw [if_neg (by omega)]

/-! Well-formed file descriptions: the spec's file format (section 6)
rendered into characters, against which the positive claims are stated. -/

/-- One cell of the data region: the comment lines preceding the data line,
and the data line's whitespace-separated tokens. -/
structure SCell where
  cmts : List (List Char)
  toks : List (List Char)
deriving DecidableEq, Repr

/-- The line contents of a data region. -/
def cellLines (cells : List SCell) : List (List Char) :=
  cells.flatMap (fun c => c.cmts ++ [joinToks c.toks])

/-- A description of an input file: `skipped` raw lines, an optional header
line, one cell per triangle position of `lstart..lmaxf`, trailing comment
lines `post`, and `tblanks` trailing blank lines. -/
structure FDesc where
  skipped : List (List Char)
  hdr : Option (List Char)
  lstart : Nat
  lmaxf : Nat
  cells : List SCell
  post : List (List Char)
  tblanks : Nat
deriving DecidableEq, Repr

/-- The header line, as a list of zero or one lines. -/
def hdrLines (d : FDesc) : List (List Char) :=
  match d.hdr with
  | some h => [h]
  | none => []

/-- All line contents of the described file. -/
def descLines (d : FDesc) : List (List Char) :=
  d.skipped ++ hdrLines d ++ cellLines d.cells ++ d.post

/-- The file content described by `d`. -/
def fileOf (d : FDesc) : List Char :=
  renderLines (descLines d) ++ List.replicate d.tblanks '\n'

/-- A line content that renders to a comment line. -/
def commentLineOK (c : List Char) : Bool :=
  nlFree c && _iscomment (c ++ ['\n'])

/-- Well-formedness of one cell against its triangle position: its comments
are comment lines, its tokens are whitespace-free and nonempty, there are at
least 4 of them, the first two are the decimal degree and order, tokens 3-4
parse under the kind, and, when errors are wanted, there are at least 6
tokens with tokens 5-6 parsing as well. -/
def cellOK (wantErr : Bool) (kind : SHKind) (c : SCell) (lm : Nat × Nat) : Bool :=
  c.cmts.all commentLineOK &&
  c.toks.all tokWF &&
  decide (4 ≤ c.toks.length) &&
  decide (pyIntDec (c.toks.getD 0 []) = some lm.1) &&
  decide (pyIntDec (c.toks.getD 1 []) = some lm.2) &&
  (parseVal kind (c.toks.getD 2 [])).isSome &&
  (parseVal kind (c.toks.getD 3 [])).isSome &&
  (!wantErr || (decide (6 ≤ c.toks.length) &&
    (parseVal kind (c.toks.getD 4 [])).isSome &&
    (parseVal kind (c.toks.getD 5 [])).isSome))

/-- Cells in lockstep with their triangle positions. -/
def cellsOK (wantErr : Bool) (kind : SHKind) :
    List SCell → List (Nat × Nat) → Bool
  | [], [] => true
  | c :: cs, p :: ps => cellOK wantErr kind c p && cellsOK wantErr kind cs ps
  | _, _ => false

/-- The kind is the one determined from the last data line. -/
def lastCellKindOK (kind : SHKind) (cells : List SCell) : Bool :=
  match cells.getLast? with
  | some c => decide (detKind (joinToks c.toks ++ ['\n']) = Except.ok kind)
  | none => false

/-- The line contents preceding the last data line. -/
def beforeLastLines (d : FDesc) : List (List Char) :=
  d.skipped ++ hdrLines d ++ cellLines d.cells.dropLast ++
    (match d.cells.getLast? with
     | some c => c.cmts
     | none => [])

/-- A well-formed description of an input coefficient file. -/
def WFDesc (wantErr : Bool) (kind : SHKind) (d : FDesc) : Prop :=
  d.lstart ≤ d.lmaxf ∧
  (∀ l ∈ d.skipped, nlFree l = true) ∧
  (∀ l ∈ hdrLines d, nlFree l = true) ∧
  (∀ c ∈ d.post, commentLineOK c = true) ∧
  d.post.getLast? ≠ some ([] : List Char) ∧
  cellsOK wantErr kind d.cells (triangle d.lstart d.lmaxf) = true ∧
  lastCellKindOK kind d.cells = true ∧
  2 ≤ (renderLines (beforeLastLines d)).length

instance (wantErr : Bool) (kind : SHKind) (d : FDesc) :
    Decidable (WFDesc wantErr kind d) := by
  unfold WFDesc
  infer_instance

/-- The grids produced by reading a sequence of data lines with the given
token lists at the given triangle positions. -/
def applyToks (wantErr : Bool) (kind : SHKind) :
    List (List (List Char)) → List (Nat × Nat) → Grid × Grid → Grid × Grid
  | ts :: tss, p :: ps, g =>
    let co2 := setG (setG g.1 0 p.1 p.2 ((parseVal kind (ts.getD 2 [])).getD ⟨0, 0⟩))
      1 p.1 p.2 ((parseVal kind (ts.getD 3 [])).getD ⟨0, 0⟩)
    let er2 := if wantErr then
        setG (setG g.2 0 p.1 p.2 ((parseVal kind (ts.getD 4 [])).getD ⟨0, 0⟩))
          1 p.1 p.2 ((parseVal kind (ts.getD 5 [])).getD ⟨0, 0⟩)
      else g.2
    applyToks wantErr kind tss ps (co2, er2)
  | _, _, g => g

/-! Facts about well-formed cells. -/

theorem joinToks_nlFree (ts : List (List Char)) (h : ∀ t ∈ ts, tokWF t = true) :
    nlFree (joinToks ts) = true := by
  induction ts with
  | nil => rfl
  | cons t ts ih =>
    have htt := h t (List.mem_cons_self t ts)
    rw [tokWF, Bool.and_eq_true] at htt
    have htnl : t.all (fun c => c ≠ '\n') = true := by
      rw [List.all_eq_true] at htt ⊢
      intro c hc
      have := htt.2 c hc
      simp only [Bool.not_eq_true'] at this
      simp only [decide_eq_true_eq]
      intro he
      rw [he] at this
      exact absurd this (by decide)
    cases hts : ts with
    | nil => rw [joinToks]; exact htnl
    | cons a as =>
      subst hts
      have hj : joinToks (t :: a :: as) = t ++ ' ' :: joinToks (a :: as) := rfl
      rw [hj, nlFree, List.all_append]
      refine Bool.and_eq_true _ _ |>.mpr ⟨htnl, ?_⟩
      rw [List.all_cons]
      refine Bool.and_eq_true _ _ |>.mpr ⟨by decide, ?_⟩
      exact ih (fun x hx => h x (List.mem_cons_of_mem t hx))

theorem dataLine_split (ts : List (List Char)) (h : ∀ t ∈ ts, tokWF t = true) :
    pySplit (joinToks ts ++ ['\n']) = ts := by
  rw [pySplit_trailing_space '\n' (by decide), pySplit_join ts h]

theorem cellOK_line (wantErr : Bool) (kind : SHKind) (c : SCell) (lm : Nat × Nat)
    (h : cellOK wantErr kind c lm = true) :
    _iscomment (joinToks c.toks ++ ['\n']) = false ∧
    pySplit (joinToks c.toks ++ ['\n']) = c.toks ∧
    nlFree (joinToks c.toks) = true := by
  rw [cellOK] at h
  simp only [Bool.and_eq_true] at h
  obtain ⟨⟨⟨⟨⟨⟨⟨hcm, htok⟩, h4⟩, h0⟩, h1⟩, h2⟩, h3⟩, herr⟩ := h
  have htoks : ∀ t ∈ c.toks, tokWF t = true := List.all_eq_true.mp htok
  have hsplit := dataLine_split c.toks htoks
  refine ⟨?_, hsplit, joinToks_nlFree c.toks htoks⟩
  rw [iscomment_false_iff, hsplit]
  rw [decide_eq_true_eq] at h4 h0 h1
  refine ⟨h4, ?_, ?_⟩
  · rw [pyIntDec] at h0
    by_cases hd : isDec (c.toks.getD 0 []) = true
    · exact hd
    · rw [if_neg hd] at h0; cases h0
  · rw [pyIntDec] at h1
    by_cases hd : isDec (c.toks.getD 1 []) = true
    · exact hd
    · rw [if_neg hd] at h1; cases h1

theorem cellsOK_length (wantErr : Bool) (kind : SHKind) :
    ∀ cells ps, cellsOK wantErr kind cells ps = true → cells.length = ps.length := by
  intro cells
  induction cells with
  | nil => intro ps h; cases ps with
    | nil => rfl
    | cons p ps => simp [cellsOK] at h
  | cons c cs ih =>
    intro ps h
    cases ps with
    | nil => simp [cellsOK] at h
    | cons p ps =>
      rw [cellsOK, Bool.and_eq_true] at h
      simp [ih ps h.2]

theorem cellsOK_split (wantErr : Bool) (kind : SHKind) :
    ∀ A B cells, cellsOK wantErr kind cells (A ++ B) = true →
      cellsOK wantErr kind (cells.take A.length) A = true ∧
      cellsOK wantErr kind (cells.drop A.length) B = true := by
  intro A
  induction A with
  | nil => intro B cells h; exact ⟨rfl, h⟩
  | cons p ps ih =>
    intro B cells h
    cases cells with
    | nil => simp [cellsOK] at h
    | cons c cs =>
      rw [List.cons_append, cellsOK, Bool.and_eq_true] at h
      obtain ⟨h1, h2⟩ := h
      obtain ⟨h3, h4⟩ := ih B cs h2
      refine ⟨?_, h4⟩
      rw [List.length_cons, List.take_succ_cons, cellsOK, Bool.and_eq_true]
      exact ⟨h1, h3⟩

theorem cellsOK_getLast (wantErr : Bool) (kind : SHKind) :
    ∀ cells ps, cellsOK wantErr kind cells ps = true →
      ∀ c p, cells.getLast? = some c → ps.getLast? = some p →
        cellOK wantErr kind c p = true := by
  intro cells
  induction cells with
  | nil => intro ps h c p hc; simp at hc
  | cons c0 cs ih =>
    intro ps h c p hc hp
    cases ps with
    | nil => simp [cellsOK] at h
    | cons p0 ps =>
      rw [cellsOK, Bool.and_eq_true] at h
      cases hcs : cs with
      | nil =>
        have : ps = [] := by
          have := cellsOK_length wantErr kind cs ps h.2
          rw [hcs] at this
          exact List.length_eq_zero.mp this.symm
        subst this
        rw [hcs] at hc
        simp at hc hp
        rw [← hc, ← hp]
        exact h.1
      | cons c1 cs1 =>
        have hpne : ps ≠ [] := by
          intro hh
          have := cellsOK_length wantErr kind cs ps h.2
          rw [hcs, hh] at this
          simp at this
        cases ps with
        | nil => exact absurd rfl hpne
        | cons p1 ps1 =>
          subst hcs
          rw [List.getLast?_cons_cons] at hc hp
          exact ih (p1 :: ps1) h.2 c p hc hp

/-- Run of the grid pass over a well-formed rendered data region: each cell's
comments are skipped, its data line consumed and its values written; the
final stream is whatever followed the region. -/
theorem readPairs_run (wantErr : Bool) (kind : SHKind) :
    ∀ cells ps (rest0 : List (List Char)) (co er : Grid),
      cellsOK wantErr kind cells ps = true →
      readPairs wantErr kind ps
        ⟨(cellLines cells).map (· ++ ['\n']) ++ rest0, co, er⟩ =
        .ok ⟨rest0, (applyToks wantErr kind (cells.map SCell.toks) ps (co, er)).1,
             (applyToks wantErr kind (cells.map SCell.toks) ps (co, er)).2⟩ := by
  intro cells
  induction cells with
  | nil =>
    intro ps rest0 co er h
    cases ps with
    | nil => simp [readPairs, cellLines, applyToks]
    | cons p ps => simp [cellsOK] at h
  | cons c cs ih =>
    intro ps rest0 co er h
    cases ps with
    | nil => simp [cellsOK] at h
    | cons p ps =>
      rw [cellsOK, Bool.and_eq_true] at h
      obtain ⟨h1, h2⟩ := h
      obtain ⟨hnc, hsplit, hnl⟩ := cellOK_line wantErr kind c p h1
      have hstream : (cellLines (c :: cs)).map (· ++ ['\n']) ++ rest0 =
          (c.cmts.map (· ++ ['\n'])) ++ (joinToks c.toks ++ ['\n']) ::
            ((cellLines cs).map (· ++ ['\n']) ++ rest0) := by
        rw [cellLines, List.flatMap_cons]
        simp [cellLines]
      rw [readPairs]
      simp only [Bind.bind, Except.bind]
      simp only [cellOK, Bool.and_eq_true] at h1
      obtain ⟨⟨⟨⟨⟨⟨⟨hcm, htok⟩, h4⟩, h0⟩, h1x⟩, h2x⟩, h3x⟩, herr⟩ := h1
      rw [decide_eq_true_eq] at h4 h0 h1x
      have hpre : ∀ x ∈ c.cmts.map (· ++ ['\n']), _iscomment x = true := by
        intro x hx
        rw [List.mem_map] at hx
        obtain ⟨y, hy, he⟩ := hx
        have := List.all_eq_true.mp hcm y hy
        rw [commentLineOK, Bool.and_eq_true] at this
        rw [← he]
        exact this.2
      obtain ⟨v2, hv2⟩ := Option.isSome_iff_exists.mp h2x
      obtain ⟨v3, hv3⟩ := Option.isSome_iff_exists.mp h3x
      rcases Bool.eq_false_or_eq_true wantErr with hwe | hwe
      · subst hwe
        simp only [Bool.not_true, Bool.false_or, Bool.and_eq_true] at herr
        obtain ⟨⟨h6, h4x⟩, h5x⟩ := herr
        rw [decide_eq_true_eq] at h6
        obtain ⟨v4, hv4⟩ := Option.isSome_iff_exists.mp h4x
        obtain ⟨v5, hv5⟩ := Option.isSome_iff_exists.mp h5x
        rw [hstream]
        rw [readCell_run_err kind p.1 p.2 _ hpre _ hnc _ co er
          (by rw [hsplit]; exact h0) (by rw [hsplit]; exact h1x) v2 v3 v4 v5
          (by rw [hsplit]; exact hv2) (by rw [hsplit]; exact hv3)
          (by rw [hsplit]; exact h6)
          (by rw [hsplit]; exact hv4) (by rw [hsplit]; exact hv5)]
        dsimp only
        rw [ih ps _ _ _ h2]
        rw [List.map_cons, applyToks]
        simp only [hv2, hv3, hv4, hv5, Option.getD_some]
        simp
      · subst hwe
        rw [hstream]
        rw [readCell_run_noerr kind p.1 p.2 _ hpre _ hnc _ co er
          (by rw [hsplit]; exact h0) (by rw [hsplit]; exact h1x) v2 v3
          (by rw [hsplit]; exact hv2) (by rw [hsplit]; exact hv3)]
        dsimp only
        rw [ih ps _ _ _ h2]
        rw [List.map_cons, applyToks]
        simp only [hv2, hv3, Option.getD_some]
        simp

/-- Run of the second pass on a stream of `skip` lines, an optional header
line, then comments before the first data line. -/
theorem pass2_run (sk : List (List Char)) (hd0 : Option (List Char))
    (cm : List (List Char)) (line : List Char) (rest : List (List Char))
    (hcm : ∀ c ∈ cm, _iscomment c = true) (hline : _iscomment line = false)
    (v : Nat) (hv : pyIntDec ((pySplit line).getD 0 []) = some v) :
    pass2 (sk ++ (match hd0 with | some h => [h] | none => []) ++ cm ++ line :: rest)
      hd0.isSome sk.length = .ok (hd0.map pySplit, v) := by
  rw [pass2]
  simp only [Bind.bind, Except.bind]
  rw [show sk ++ (match hd0 with | some h => [h] | none => []) ++ cm ++ line :: rest =
    sk ++ ((match hd0 with | some h => [h] | none => []) ++ (cm ++ line :: rest)) by simp]
  rw [skipChk_of_stream sk _]
  dsimp only
  cases hd0 with
  | none =>
    rw [show (none : Option (List Char)).isSome = false from rfl,
      if_neg Bool.false_ne_true]
    dsimp only
    rw [List.nil_append, findData_of_stream _ cm hcm line hline rest]
    dsimp only
    rw [hv]
    rfl
  | some h =>
    rw [show (some h).isSome = true from rfl, if_pos rfl]
    dsimp only
    rw [List.cons_append]
    dsimp only
    rw [List.nil_append, findData_of_stream _ cm hcm line hline rest]
    dsimp only
    rw [hv]
    rfl

theorem triangle_last (b : Nat) : triangle b b = (List.range (b + 1)).map (fun m => (b, m)) := by
  rw [triangle]
  have h1 : b + 1 - b = 1 := by omega
  rw [h1]
  have h2 : List.range' b 1 = [b] := rfl
  rw [h2]
  simp

theorem triangle_getLast (a b : Nat) (h : a ≤ b) :
    (triangle a b).getLast? = some (b, b) := by
  have hbb : (triangle b b).getLast? = some (b, b) := by
    rw [triangle_last, List.range_succ, List.map_append]
    simp
  by_cases hb : b = 0
  · subst hb
    have ha : a = 0 := by omega
    subst ha
    exact hbb
  · have hsplit := triangle_split a (b - 1) b (by omega) (by omega)
    have hb1 : b - 1 + 1 = b := by omega
    rw [hb1] at hsplit
    rw [hsplit, List.getLast?_append, hbb]
    rfl

theorem cellLines_snoc (cells : List SCell) (hne : cells ≠ []) :
    cellLines cells = cellLines cells.dropLast ++
      (cells.getLast hne).cmts ++ [joinToks (cells.getLast hne).toks] := by
  conv_lhs => rw [← List.dropLast_append_getLast hne]
  rw [cellLines, List.flatMap_append, List.flatMap_cons]
  simp [cellLines]

/-- The tail scan on a well-formed rendered file: lines `ls1` (at least two
characters in total), then the data line `d`, then comment lines `cs` whose
last line (if any) is nonempty, then `j` trailing blank lines. The scan
returns `d` with its line break. -/
theorem lastLineScan_found (ls1 : List (List Char)) (d : List Char)
    (cs : List (List Char)) (j : Nat)
    (hd1 : nlFree d = true) (hd2 : _iscomment (d ++ ['\n']) = false)
    (hcs : ∀ c ∈ cs, nlFree c = true ∧ _iscomment (c ++ ['\n']) = true)
    (hlast : cs.getLast? ≠ some [])
    (hpre : 2 ≤ (renderLines ls1).length) :
    lastLineScan (renderLines (ls1 ++ d :: cs) ++ List.replicate j '\n')
      = .ok (d ++ ['\n']) := by
  have hdne : d ≠ [] := by
    intro hh
    rw [hh] at hd2
    simp only [List.nil_append] at hd2
    exact absurd hd2 (by decide)
  have hdlen : 1 ≤ d.length := List.length_pos.mpr hdne
  have hls1ne : ls1 ≠ [] := by
    intro hh
    rw [hh] at hpre
    simp [renderLines] at hpre
  obtain ⟨q1, hq1⟩ := renderLines_ends ls1 hls1ne
  have hq1len : (renderLines ls1).length = q1.length + 1 := by rw [hq1]; simp
  cases hcs0 : cs with
  | nil =>
    subst hcs0
    have hsh : renderLines (ls1 ++ [d]) ++ List.replicate j '\n' =
        renderLines ls1 ++ ((d ++ ['\n']) ++ List.replicate j '\n') := by
      rw [renderLines_append]
      simp [renderLines]
    rw [hsh, lastLineScan_reduce (renderLines ls1) d j hdne hd1 (by omega)]
    have hb2 : renderLines ls1 ++ ((d ++ ['\n']) ++ List.replicate j '\n') =
        q1 ++ '\n' :: (d ++ '\n' :: List.replicate j '\n') := by
      rw [hq1]
      simp
    have hpos : (renderLines ls1).length + d.length - 2 =
        q1.length + (d.length - 1) := by omega
    have hfuel : (renderLines ls1 ++ ((d ++ ['\n']) ++ List.replicate j '\n')).length =
        ((renderLines ls1 ++ ((d ++ ['\n']) ++ List.replicate j '\n')).length - 1) + 1 := by
      simp
      omega
    rw [hpos, hfuel, hb2]
    rw [tailLoop_step q1 d (List.replicate j '\n') _ hd1 (d.length - 1) (by omega)]
    rw [if_neg (by omega), if_neg (by rw [hd2]; simp)]
  | cons a as =>
    have hcne : cs ≠ [] := by rw [hcs0]; simp
    rw [← hcs0]
    set L := cs.getLast hcne with hLdef
    set cs8 := cs.dropLast with hcs8def
    have hLmem : L ∈ cs := List.getLast_mem hcne
    have hLne : L ≠ [] := by
      intro hh
      rw [List.getLast?_eq_getLast cs hcne, ← hLdef, hh] at hlast
      exact hlast rfl
    have hsplit : ls1 ++ d :: cs = (ls1 ++ d :: cs8) ++ [L] := by
      rw [hcs8def, hLdef, List.append_assoc, List.cons_append,
        List.dropLast_append_getLast hcne]
    have hC0ne : ls1 ++ d :: cs8 ≠ [] := by simp [hls1ne]
    obtain ⟨q2, hq2⟩ := renderLines_ends _ hC0ne
    have hq2len : (renderLines (ls1 ++ d :: cs8)).length = q2.length + 1 := by
      rw [hq2]; simp
    have hC0len : (renderLines ls1).length + d.length + 1 ≤
        (renderLines (ls1 ++ d :: cs8)).length := by
      rw [renderLines_append]
      simp [renderLines]
      omega
    have hcs8sub : ∀ c ∈ cs8, nlFree c = true ∧ _iscomment (c ++ ['\n']) = true := by
      intro c hc
      apply hcs
      rw [hcs8def] at hc
      exact List.dropLast_subset cs hc
    have hsh : renderLines (ls1 ++ d :: cs) ++ List.replicate j '\n' =
        renderLines (ls1 ++ d :: cs8) ++ ((L ++ ['\n']) ++ List.replicate j '\n') := by
      rw [hsplit, renderLines_append]
      simp [renderLines]
    rw [hsh, lastLineScan_reduce _ L j hLne (hcs L hLmem).1 (by omega)]
    -- step over L
    have hb2 : renderLines (ls1 ++ d :: cs8) ++ ((L ++ ['\n']) ++ List.replicate j '\n') =
        q2 ++ '\n' :: (L ++ '\n' :: List.replicate j '\n') := by
      rw [hq2]
      simp
    have hLlen : 1 ≤ L.length := List.length_pos.mpr hLne
    have hpos : (renderLines (ls1 ++ d :: cs8)).length + L.length - 2 =
        q2.length + (L.length - 1) := by omega
    set n := (renderLines (ls1 ++ d :: cs8) ++ ((L ++ ['\n']) ++ List.replicate j '\n')).length with hn
    have hnval : n = (renderLines (ls1 ++ d :: cs8)).length + L.length + 1 + j := by
      rw [hn]
      simp
      omega
    have hfuel : n = (n - 1) + 1 := by omega
    rw [hpos, hfuel, hb2]
    rw [tailLoop_step q2 L (List.replicate j '\n') _ (hcs L hLmem).1 (L.length - 1) (by omega)]
    rw [if_neg (by omega), if_pos (hcs L hLmem).2]
    -- skip the comment block cs8
    have hb3 : q2 ++ '\n' :: (L ++ '\n' :: List.replicate j '\n') =
        (renderLines ls1 ++ d) ++ '\n' ::
          (renderLines cs8 ++ (L ++ '\n' :: List.replicate j '\n')) := by
      rw [← hb2, renderLines_append]
      simp [renderLines]
    have hposq2 : q2.length - 1 =
        (renderLines ls1 ++ d).length + (renderLines cs8).length - 1 := by
      have : (renderLines (ls1 ++ d :: cs8)).length =
          (renderLines ls1).length + d.length + 1 + (renderLines cs8).length := by
        rw [renderLines_append]
        simp [renderLines]
        omega
      simp only [List.length_append]
      omega
    have hcs8len : cs8.length ≤ (renderLines cs8).length := renderLines_length_ge cs8
    have hfuel2 : n - 1 = (n - 1 - cs8.length) + cs8.length := by
      have : cs8.length + 1 + (renderLines ls1).length + d.length + 1 ≤ n := by
        have h9 : (renderLines cs8).length + 1 + (renderLines ls1).length + d.length + 1 ≤ n := by
          rw [hnval, renderLines_append]
          simp [renderLines]
          omega
        omega
      omega
    rw [hb3, hposq2, hfuel2]
    rw [tailLoop_comments cs8 (renderLines ls1 ++ d)
      (L ++ '\n' :: List.replicate j '\n') (n - 1 - cs8.length)
      (by simp; omega) hcs8sub]
    -- final step over d
    have hb4 : (renderLines ls1 ++ d) ++ '\n' ::
          (renderLines cs8 ++ (L ++ '\n' :: List.replicate j '\n')) =
        q1 ++ '\n' :: (d ++ '\n' ::
          (renderLines cs8 ++ (L ++ '\n' :: List.replicate j '\n'))) := by
      rw [hq1]
      simp
    have hposd : (renderLines ls1 ++ d).length - 1 = q1.length + d.length := by
      simp only [List.length_append]
      omega
    have hfuel3 : n - 1 - cs8.length = ((n - 1 - cs8.length) - 1) + 1 := by
      have h9 : (renderLines cs8).length + 1 + (renderLines ls1).length + d.length + 1 ≤ n := by
        rw [hnval, renderLines_append]
        simp [renderLines]
        omega
      omega
    rw [hposd, hfuel3, hb4]
    rw [tailLoop_step q1 d _ _ hd1 d.length (le_refl _)]
    rw [if_neg (by omega), if_neg (by rw [hd2]; simp)]

/-- The tail pass on a well-formed described file: `lmaxfile` is the degree
carried by the last data line and the kind is the one determined from that
line's third token — independent of `skip`, the header flag and any cap,
none of which `shreadTail` receives. -/
theorem shreadTail_run (d : FDesc) (wantErr : Bool) (kind : SHKind)
    (hwf : WFDesc wantErr kind d) :
    shreadTail (fileOf d) = .ok (d.lmaxf, kind) := by
  obtain ⟨hab, hsk, hhd, hpost, hplast, hcells, hkind, hpre⟩ := hwf
  have htri : (triangle d.lstart d.lmaxf).getLast? = some (d.lmaxf, d.lmaxf) :=
    triangle_getLast _ _ hab
  have hcne : d.cells ≠ [] := by
    intro hh
    have hlen := cellsOK_length _ _ _ _ hcells
    rw [hh] at hlen
    obtain ⟨t, ht⟩ := triangle_head d.lstart d.lmaxf hab
    rw [ht] at hlen
    simp at hlen
  have hcl : d.cells.getLast? = some (d.cells.getLast hcne) :=
    List.getLast?_eq_getLast _ hcne
  have hcok : cellOK wantErr kind (d.cells.getLast hcne) (d.lmaxf, d.lmaxf) = true :=
    cellsOK_getLast _ _ _ _ hcells _ _ hcl htri
  obtain ⟨hnc, hsplit, hnl⟩ := cellOK_line _ _ _ _ hcok
  have hdesc : descLines d = beforeLastLines d ++
      joinToks (d.cells.getLast hcne).toks :: d.post := by
    rw [descLines, beforeLastLines, hcl]
    rw [cellLines_snoc d.cells hcne]
    simp
  have hscan : lastLineScan (fileOf d) =
      .ok (joinToks (d.cells.getLast hcne).toks ++ ['\n']) := by
    rw [fileOf, hdesc]
    exact lastLineScan_found _ _ _ _ hnl hnc
      (fun x hx => by
        have hcx := hpost x hx
        rw [commentLineOK, Bool.and_eq_true] at hcx
        exact ⟨hcx.1, hcx.2⟩)
      hplast hpre
  rw [shreadTail]
  simp only [Bind.bind, Except.bind]
  rw [hscan]
  dsimp only
  simp only [cellOK, Bool.and_eq_true] at hcok
  obtain ⟨⟨⟨⟨⟨⟨⟨hA, hB⟩, hC⟩, hD⟩, hE⟩, hF⟩, hG⟩, hH⟩ := hcok
  rw [decide_eq_true_eq] at hD
  rw [hsplit, hD]
  dsimp only
  rw [lastCellKindOK, hcl] at hkind
  rw [decide_eq_true_eq] at hkind
  rw [hkind]

theorem capOf_le (lmax : Option Nat) (lf : Nat) : capOf lmax lf ≤ lf := by
  cases lmax with
  | none => exact le_refl _
  | some k => exact Nat.min_le_right k lf

theorem cellsOK_lines_nlFree (wantErr : Bool) (kind : SHKind) :
    ∀ cells ps, cellsOK wantErr kind cells ps = true →
      ∀ l ∈ cellLines cells, nlFree l = true := by
  intro cells
  induction cells with
  | nil => intro ps _ l hl; simp [cellLines] at hl
  | cons c cs ih =>
    intro ps h l hl
    cases ps with
    | nil => simp [cellsOK] at h
    | cons p ps =>
      rw [cellsOK, Bool.and_eq_true] at h
      rw [cellLines, List.flatMap_cons] at hl
      rw [List.append_assoc, List.mem_append] at hl
      rcases hl with hl | hl
      · have hcm := h.1
        simp only [cellOK, Bool.and_eq_true] at hcm
        have := List.all_eq_true.mp hcm.1.1.1.1.1.1.1 l hl
        rw [commentLineOK, Bool.and_eq_true] at this
        exact this.1
      · rcases List.mem_cons.mp hl with hl | hl
        · rw [hl]
          exact (cellOK_line _ _ _ _ h.1).2.2
        · exact ih ps h.2 l hl

theorem cellLines_append (a b : List SCell) :
    cellLines (a ++ b) = cellLines a ++ cellLines b := by
  rw [cellLines, cellLines, cellLines, List.flatMap_append]

/-- The complete run of `shread` on a well-formed described file, called
with the matching skip count and header flag and any degree cap: the three
passes succeed, `lmaxfile` is the last data line's degree, the header tokens
are those of the described header line, and the grids are the writes of the
cells up to the capped triangle, the remaining cells staying unconsumed in
the stream. -/
theorem shread_wf_main (d : FDesc) (lmax : Option Nat) (wantErr : Bool)
    (kind : SHKind) (hwf : WFDesc wantErr kind d) :
    shreadTail (fileOf d) = .ok (d.lmaxf, kind) ∧
    pass2 (toLines (fileOf d)) d.hdr.isSome d.skipped.length =
      .ok (d.hdr.map pySplit, d.lstart) ∧
    readPairs wantErr kind (triangle d.lstart (capOf lmax d.lmaxf))
      ⟨(if d.hdr.isSome then ((toLines (fileOf d)).drop d.skipped.length).drop 1
        else (toLines (fileOf d)).drop d.skipped.length),
       zeroGrid (capOf lmax d.lmaxf), zeroGrid (capOf lmax d.lmaxf)⟩ =
      .ok ⟨(cellLines (d.cells.drop (triangle d.lstart (capOf lmax d.lmaxf)).length)).map
              (· ++ ['\n']) ++ d.post.map (· ++ ['\n']) ++
              List.replicate d.tblanks ['\n'],
           (applyToks wantErr kind
             ((d.cells.take (triangle d.lstart (capOf lmax d.lmaxf)).length).map SCell.toks)
             (triangle d.lstart (capOf lmax d.lmaxf))
             (zeroGrid (capOf lmax d.lmaxf), zeroGrid (capOf lmax d.lmaxf))).1,
           (applyToks wantErr kind
             ((d.cells.take (triangle d.lstart (capOf lmax d.lmaxf)).length).map SCell.toks)
             (triangle d.lstart (capOf lmax d.lmaxf))
             (zeroGrid (capOf lmax d.lmaxf), zeroGrid (capOf lmax d.lmaxf))).2⟩ ∧
    shread (fileOf d) lmax wantErr d.hdr.isSome d.skipped.length =
      .ok ⟨(applyToks wantErr kind
             ((d.cells.take (triangle d.lstart (capOf lmax d.lmaxf)).length).map SCell.toks)
             (triangle d.lstart (capOf lmax d.lmaxf))
             (zeroGrid (capOf lmax d.lmaxf), zeroGrid (capOf lmax d.lmaxf))).1,
           (if wantErr then some (applyToks wantErr kind
             ((d.cells.take (triangle d.lstart (capOf lmax d.lmaxf)).length).map SCell.toks)
             (triangle d.lstart (capOf lmax d.lmaxf))
             (zeroGrid (capOf lmax d.lmaxf), zeroGrid (capOf lmax d.lmaxf))).2 else none),
           d.hdr.map pySplit, capOf lmax d.lmaxf⟩ := by
  have htail := shreadTail_run d wantErr kind hwf
  obtain ⟨hab, hsk, hhd, hpost, hplast, hcells, hkind, hpre⟩ := hwf
  set cap := capOf lmax d.lmaxf with hcapdef
  have hcaple : cap ≤ d.lmaxf := capOf_le lmax d.lmaxf
  -- all described lines are free of line breaks
  have hall : ∀ l ∈ descLines d, nlFree l = true := by
    intro l hl
    rw [descLines] at hl
    simp only [List.append_assoc, List.mem_append] at hl
    rcases hl with hl | hl | hl | hl
    · exact hsk l hl
    · exact hhd l hl
    · exact cellsOK_lines_nlFree wantErr kind _ _ hcells l hl
    · have := hpost l hl
      rw [commentLineOK, Bool.and_eq_true] at this
      exact this.1
  have hlines : toLines (fileOf d) =
      (descLines d).map (· ++ ['\n']) ++ List.replicate d.tblanks ['\n'] := by
    rw [fileOf]
    exact toLines_render_blanks _ _ hall
  -- split the triangle at the cap
  have hsplit : ∃ T2, triangle d.lstart d.lmaxf = triangle d.lstart cap ++ T2 := by
    by_cases hc : d.lstart ≤ cap
    · exact ⟨triangle (cap + 1) d.lmaxf, triangle_split d.lstart cap d.lmaxf (by omega) hcaple⟩
    · refine ⟨triangle d.lstart d.lmaxf, ?_⟩
      rw [triangle_empty d.lstart cap (by omega)]
      rfl
  obtain ⟨T2, hT2⟩ := hsplit
  rw [hT2] at hcells
  obtain ⟨hc1, hc2⟩ := cellsOK_split wantErr kind _ _ _ hcells
  -- first cell: the data line defining lstart
  have htrist : ∃ t, triangle d.lstart d.lmaxf = (d.lstart, 0) :: t :=
    triangle_head d.lstart d.lmaxf hab
  obtain ⟨ttail, httail⟩ := htrist
  have hcellsfull : cellsOK wantErr kind d.cells (triangle d.lstart d.lmaxf) = true := by
    rw [hT2]
    exact hcells
  have hcne : d.cells ≠ [] := by
    intro hh
    have hlen := cellsOK_length _ _ _ _ hcellsfull
    rw [hh, httail] at hlen
    simp at hlen
  obtain ⟨c0, cells1, hc0⟩ := List.exists_cons_of_ne_nil hcne
  have hc0ok : cellOK wantErr kind c0 (d.lstart, 0) = true := by
    have := hcellsfull
    rw [hc0, httail, cellsOK, Bool.and_eq_true] at this
    exact this.1
  obtain ⟨hnc0, hsplit0, hnl0⟩ := cellOK_line _ _ _ _ hc0ok
  have hl0 : pyIntDec ((pySplit (joinToks c0.toks ++ ['\n'])).getD 0 []) = some d.lstart := by
    rw [hsplit0]
    have := hc0ok
    simp only [cellOK, Bool.and_eq_true] at this
    have h0 := this.1.1.1.1.2
    rw [decide_eq_true_eq] at h0
    exact h0
  -- the second-pass stream shape
  have hstream2 : toLines (fileOf d) =
      d.skipped.map (· ++ ['\n']) ++
      (match d.hdr.map (· ++ ['\n']) with | some h => [h] | none => []) ++
      c0.cmts.map (· ++ ['\n']) ++ (joinToks c0.toks ++ ['\n']) ::
        ((cellLines cells1).map (· ++ ['\n']) ++ d.post.map (· ++ ['\n']) ++
         List.replicate d.tblanks ['\n']) := by
    rw [hlines, descLines, hc0]
    rw [cellLines, List.flatMap_cons, ← cellLines]
    cases hh : d.hdr with
    | none =>
      rw [hdrLines, hh]
      simp
    | some h =>
      rw [hdrLines, hh]
      simp
  have hcm0 : ∀ c ∈ c0.cmts.map (· ++ ['\n']), _iscomment c = true := by
    intro c hc
    rw [List.mem_map] at hc
    obtain ⟨y, hy, he⟩ := hc
    have := hc0ok
    simp only [cellOK, Bool.and_eq_true] at this
    have hcm := List.all_eq_true.mp this.1.1.1.1.1.1.1 y hy
    rw [commentLineOK, Bool.and_eq_true] at hcm
    rw [← he]
    exact hcm.2
  have hp2 : pass2 (toLines (fileOf d)) d.hdr.isSome d.skipped.length =
      .ok (d.hdr.map pySplit, d.lstart) := by
    rw [hstream2]
    have hlen : d.skipped.length = (d.skipped.map (· ++ ['\n'])).length := by
      rw [List.length_map]
    rw [hlen]
    have hiss : d.hdr.isSome = (d.hdr.map (· ++ ['\n'])).isSome := by
      cases d.hdr <;> rfl
    rw [hiss]
    rw [pass2_run _ _ _ _ _ hcm0 hnc0 d.lstart hl0]
    cases hh : d.hdr with
    | none => rfl
    | some h =>
      show Except.ok (some (pySplit (h ++ ['\n'])), d.lstart) =
        Except.ok (some (pySplit h), d.lstart)
      rw [pySplit_trailing_space '\n' (by decide)]
  -- the third-pass stream shape
  have hstream3 : (if d.hdr.isSome then
        ((toLines (fileOf d)).drop d.skipped.length).drop 1
      else (toLines (fileOf d)).drop d.skipped.length) =
      (cellLines d.cells).map (· ++ ['\n']) ++
        (d.post.map (· ++ ['\n']) ++ List.replicate d.tblanks ['\n']) := by
    rw [hlines, descLines]
    cases hh : d.hdr with
    | none =>
      rw [show (none : Option (List Char)).isSome = false from rfl,
        if_neg Bool.false_ne_true]
      rw [hdrLines, hh]
      dsimp only
      rw [List.map_append, List.map_append, List.map_append, List.map_nil]
      rw [List.append_nil, List.append_assoc, List.append_assoc,
        List.drop_left' (List.length_map _ _)]
    | some h =>
      rw [show (some h).isSome = true from rfl, if_pos rfl]
      rw [hdrLines, hh]
      dsimp only
      rw [List.map_append, List.map_append, List.map_append,
        List.map_cons, List.map_nil]
      rw [List.append_assoc, List.append_assoc, List.append_assoc,
        List.drop_left' (List.length_map _ _), List.singleton_append]
      rfl
  -- run the grid pass
  have htake : d.cells = d.cells.take (triangle d.lstart cap).length ++
      d.cells.drop (triangle d.lstart cap).length := by
    rw [List.take_append_drop]
  have hrp : readPairs wantErr kind (triangle d.lstart cap)
      ⟨(if d.hdr.isSome then ((toLines (fileOf d)).drop d.skipped.length).drop 1
        else (toLines (fileOf d)).drop d.skipped.length),
       zeroGrid cap, zeroGrid cap⟩ =
      .ok ⟨(cellLines (d.cells.drop (triangle d.lstart cap).length)).map (· ++ ['\n']) ++
            d.post.map (· ++ ['\n']) ++ List.replicate d.tblanks ['\n'],
           (applyToks wantErr kind
             ((d.cells.take (triangle d.lstart cap).length).map SCell.toks)
             (triangle d.lstart cap) (zeroGrid cap, zeroGrid cap)).1,
           (applyToks wantErr kind
             ((d.cells.take (triangle d.lstart cap).length).map SCell.toks)
             (triangle d.lstart cap) (zeroGrid cap, zeroGrid cap)).2⟩ := by
    rw [hstream3]
    conv_lhs => rw [htake]
    rw [cellLines_append, List.map_append, List.append_assoc]
    rw [readPairs_run wantErr kind _ _ _ _ _ hc1]
    rw [List.append_assoc]
  refine ⟨htail, hp2, hrp, ?_⟩
  rw [shread]
  simp only [Bind.bind, Except.bind]
  rw [htail]
  dsimp only
  rw [hp2]
  dsimp only
  rw [← hcapdef, hrp]

/-! Concrete well-formed example files for the witnesses. -/

/-- Example cell (0,0): data line `0 0 1.5 0.5`. -/
def cellEx00 : SCell := ⟨[], [['0'], ['0'], ['1', '.', '5'], ['0', '.', '5']]⟩

/-- Example cell (1,0): a comment line `# c` then data line `1 0 2.0 0`. -/
def cellEx10 : SCell := ⟨[['#', ' ', 'c']], [['1'], ['0'], ['2', '.', '0'], ['0']]⟩

/-- Example cell (1,1): data line `1 1 3.0 4.0`. -/
def cellEx11 : SCell := ⟨[], [['1'], ['1'], ['3', '.', '0'], ['4', '.', '0']]⟩

/-- An example description: no skipped lines, no header, degrees 0..1. -/
def dEx : FDesc := ⟨[], none, 0, 1, [cellEx00, cellEx10, cellEx11], [], 0⟩

/-- The same data lines as `dEx` with a different comment layout: a comment
before the first data line, a blank line before the last, a trailing comment
block and two trailing blank lines. -/
def dEx' : FDesc :=
  ⟨[], none, 0, 1,
   [⟨[['%']], cellEx00.toks⟩, ⟨[], cellEx10.toks⟩, ⟨[[]], cellEx11.toks⟩],
   [['#', '!']], 2⟩

/-- Example cells for a file starting at degree 2. -/
def cellEx20 : SCell := ⟨[], [['2'], ['0'], ['1'], ['2']]⟩

/-- Cell (2,1) of the degree-2 example. -/
def cellEx21 : SCell := ⟨[], [['2'], ['1'], ['3'], ['4']]⟩

/-- Cell (2,2) of the degree-2 example. -/
def cellEx22 : SCell := ⟨[], [['2'], ['2'], ['5'], ['6']]⟩

/-- An example description whose first data line has degree `lstart = 2`. -/
def dEx2 : FDesc := ⟨[], none, 2, 2, [cellEx20, cellEx21, cellEx22], [], 0⟩

/-- C1 (amended): for a well-formed described file (whose last data line is
preceded by at least two characters — `C1_counterexample` refutes the claim
for single-data-line files), calling read with no degree cap returns
`lmaxout` equal to the last data line's degree, and that degree is the one
computed by `shreadTail`, a function of the file content alone taking
neither the skip count nor the header flag, hence identical for every
setting of them. -/
theorem C1_lmax_from_tail (d : FDesc) (wantErr : Bool) (kind : SHKind)
    (hwf : WFDesc wantErr kind d) :
    shreadTail (fileOf d) = .ok (d.lmaxf, kind) ∧
    ∃ res, shread (fileOf d) none wantErr d.hdr.isSome d.skipped.length =
        .ok res ∧ res.lmaxout = d.lmaxf := by
  have h := shread_wf_main d none wantErr kind hwf
  exact ⟨h.1, _, h.2.2.2, rfl⟩

/-- Witness for C1 at the concrete file `dEx`. -/
theorem C1_lmax_from_tail_witness :
    shreadTail (fileOf dEx) = .ok (dEx.lmaxf, SHKind.real) ∧
    ∃ res, shread (fileOf dEx) none false dEx.hdr.isSome dEx.skipped.length =
        .ok res ∧ res.lmaxout = dEx.lmaxf :=
  C1_lmax_from_tail dEx false SHKind.real (by decide)

/-- C3 (amended): with a requested cap `k`, the call on a well-formed
described file (whose last data line is preceded by at least two characters
— `C3_counterexample` refutes the claim for single-data-line files, which
die in the tail scan before the cap is consulted) returns
`lmaxout = min k lmaxfile`; the grid pass consumes exactly the cells of the
capped triangle, leaving every later data line (all of degree `> k` when
`k < lmaxfile`) unread in the stream; and `lmaxfile` still comes from
`shreadTail` on the unmodified content. -/
theorem C3_cap (d : FDesc) (k : Nat) (wantErr : Bool) (kind : SHKind)
    (hwf : WFDesc wantErr kind d) :
    shreadTail (fileOf d) = .ok (d.lmaxf, kind) ∧
    (∃ res, shread (fileOf d) (some k) wantErr d.hdr.isSome d.skipped.length =
        .ok res ∧ res.lmaxout = min k d.lmaxf) ∧
    (∃ st, readPairs wantErr kind (triangle d.lstart (min k d.lmaxf))
        ⟨(if d.hdr.isSome then ((toLines (fileOf d)).drop d.skipped.length).drop 1
          else (toLines (fileOf d)).drop d.skipped.length),
         zeroGrid (min k d.lmaxf), zeroGrid (min k d.lmaxf)⟩ = .ok st ∧
      st.rest = (cellLines (d.cells.drop
            (triangle d.lstart (min k d.lmaxf)).length)).map (· ++ ['\n']) ++
          d.post.map (· ++ ['\n']) ++ List.replicate d.tblanks ['\n']) := by
  have h := shread_wf_main d (some k) wantErr kind hwf
  exact ⟨h.1, ⟨_, h.2.2.2, rfl⟩, ⟨_, h.2.2.1, rfl⟩⟩

/-- Witness for C3 at the concrete file `dEx` with cap 0. -/
theorem C3_cap_witness :
    shreadTail (fileOf dEx) = .ok (dEx.lmaxf, SHKind.real) ∧
    (∃ res, shread (fileOf dEx) (some 0) false dEx.hdr.isSome dEx.skipped.length =
        .ok res ∧ res.lmaxout = min 0 dEx.lmaxf) ∧
    (∃ st, readPairs false SHKind.real (triangle dEx.lstart (min 0 dEx.lmaxf))
        ⟨(if dEx.hdr.isSome then ((toLines (fileOf dEx)).drop dEx.skipped.length).drop 1
          else (toLines (fileOf dEx)).drop dEx.skipped.length),
         zeroGrid (min 0 dEx.lmaxf), zeroGrid (min 0 dEx.lmaxf)⟩ = .ok st ∧
      st.rest = (cellLines (dEx.cells.drop
            (triangle dEx.lstart (min 0 dEx.lmaxf)).length)).map (· ++ ['\n']) ++
          dEx.post.map (· ++ ['\n']) ++ List.replicate dEx.tblanks ['\n']) :=
  C3_cap dEx 0 false SHKind.real (by decide)

/-- C10: when the requested cap puts `lmaxout = min k lmaxfile` strictly
below the file's first degree `lstart`, the call does not fail: the degree
loop is empty, so it consumes no data line (the whole data region stays in
the stream) and returns all-zero grids of shape `(2, lmaxout+1, lmaxout+1)`. -/
theorem C10_cap_below_lstart (d : FDesc) (k : Nat) (wantErr : Bool)
    (kind : SHKind) (hwf : WFDesc wantErr kind d)
    (hlt : min k d.lmaxf < d.lstart) :
    shread (fileOf d) (some k) wantErr d.hdr.isSome d.skipped.length =
      .ok ⟨zeroGrid (min k d.lmaxf),
           if wantErr then some (zeroGrid (min k d.lmaxf)) else none,
           d.hdr.map pySplit, min k d.lmaxf⟩ ∧
    (∃ st, readPairs wantErr kind (triangle d.lstart (min k d.lmaxf))
        ⟨(if d.hdr.isSome then ((toLines (fileOf d)).drop d.skipped.length).drop 1
          else (toLines (fileOf d)).drop d.skipped.length),
         zeroGrid (min k d.lmaxf), zeroGrid (min k d.lmaxf)⟩ = .ok st ∧
      st.rest = (cellLines d.cells).map (· ++ ['\n']) ++
          d.post.map (· ++ ['\n']) ++ List.replicate d.tblanks ['\n']) := by
  have h := shread_wf_main d (some k) wantErr kind hwf
  have htri2 : triangle d.lstart (capOf (some k) d.lmaxf) = [] :=
    triangle_empty _ _ hlt
  have htri : triangle d.lstart (min k d.lmaxf) = [] :=
    triangle_empty _ _ hlt
  rw [htri2] at h
  refine ⟨h.2.2.2, ?_⟩
  rw [htri]
  exact ⟨_, h.2.2.1, rfl⟩

/-- Witness for C10 at the concrete file `dEx2` (first degree 2) with cap 1. -/
theorem C10_cap_below_lstart_witness :
    shread (fileOf dEx2) (some 1) false dEx2.hdr.isSome dEx2.skipped.length =
      .ok ⟨zeroGrid (min 1 dEx2.lmaxf),
           if false then some (zeroGrid (min 1 dEx2.lmaxf)) else none,
           dEx2.hdr.map pySplit, min 1 dEx2.lmaxf⟩ ∧
    (∃ st, readPairs false SHKind.real (triangle dEx2.lstart (min 1 dEx2.lmaxf))
        ⟨(if dEx2.hdr.isSome then ((toLines (fileOf dEx2)).drop dEx2.skipped.length).drop 1
          else (toLines (fileOf dEx2)).drop dEx2.skipped.length),
         zeroGrid (min 1 dEx2.lmaxf), zeroGrid (min 1 dEx2.lmaxf)⟩ = .ok st ∧
      st.rest = (cellLines dEx2.cells).map (· ++ ['\n']) ++
          dEx2.post.map (· ++ ['\n']) ++ List.replicate dEx2.tblanks ['\n']) :=
  C10_cap_below_lstart dEx2 1 false SHKind.real (by decide) (by decide)

/-- C5: the numeric kind is determined once, from the third word of the
file's last data line — real when it parses as a float literal, otherwise
complex when it parses as a complex literal, otherwise the call fails with
the format error naming the offending token and the full line — and the
grids of a successful call are built by `applyToks` parsing every
coefficient (and error) word under that same single kind. -/
theorem C5_kind_determination (line : List Char) (d : FDesc)
    (lmax : Option Nat) (wantErr : Bool) (kind : SHKind)
    (hwf : WFDesc wantErr kind d) :
    (detKind line =
      if (pyFloat ((pySplit line).getD 2 [])).isSome then .ok SHKind.real
      else if (pyComplex ((pySplit line).getD 2 [])).isSome then .ok SHKind.cplx
      else .error (.formatError ((pySplit line).getD 2 []) line)) ∧
    (∃ c, d.cells.getLast? = some c ∧
      detKind (joinToks c.toks ++ ['\n']) = .ok kind) ∧
    shreadTail (fileOf d) = .ok (d.lmaxf, kind) ∧
    shread (fileOf d) lmax wantErr d.hdr.isSome d.skipped.length =
      .ok ⟨(applyToks wantErr kind
             ((d.cells.take (triangle d.lstart (capOf lmax d.lmaxf)).length).map SCell.toks)
             (triangle d.lstart (capOf lmax d.lmaxf))
             (zeroGrid (capOf lmax d.lmaxf), zeroGrid (capOf lmax d.lmaxf))).1,
           (if wantErr then some (applyToks wantErr kind
             ((d.cells.take (triangle d.lstart (capOf lmax d.lmaxf)).length).map SCell.toks)
             (triangle d.lstart (capOf lmax d.lmaxf))
             (zeroGrid (capOf lmax d.lmaxf), zeroGrid (capOf lmax d.lmaxf))).2 else none),
           d.hdr.map pySplit, capOf lmax d.lmaxf⟩ := by
  have h := shread_wf_main d lmax wantErr kind hwf
  refine ⟨rfl, ?_, h.1, h.2.2.2⟩
  have hk := hwf.2.2.2.2.2.2.1
  rw [lastCellKindOK] at hk
  cases hl : d.cells.getLast? with
  | none => rw [hl] at hk; cases hk
  | some c => rw [hl] at hk; exact ⟨c, rfl, of_decide_eq_true hk⟩

/-- Witness for C5: a complex third token on a sample line, and the run of
`dEx` whose kind is real. -/
theorem C5_kind_determination_witness :
    (detKind ("5 5 1+2j 0j".toList) =
      if (pyFloat ((pySplit ("5 5 1+2j 0j".toList)).getD 2 [])).isSome then .ok SHKind.real
      else if (pyComplex ((pySplit ("5 5 1+2j 0j".toList)).getD 2 [])).isSome then .ok SHKind.cplx
      else .error (.formatError ((pySplit ("5 5 1+2j 0j".toList)).getD 2 []) ("5 5 1+2j 0j".toList))) ∧
    (∃ c, dEx.cells.getLast? = some c ∧
      detKind (joinToks c.toks ++ ['\n']) = .ok SHKind.real) ∧
    shreadTail (fileOf dEx) = .ok (dEx.lmaxf, SHKind.real) ∧
    shread (fileOf dEx) none false dEx.hdr.isSome dEx.skipped.length =
      .ok ⟨(applyToks false SHKind.real
             ((dEx.cells.take (triangle dEx.lstart (capOf none dEx.lmaxf)).length).map SCell.toks)
             (triangle dEx.lstart (capOf none dEx.lmaxf))
             (zeroGrid (capOf none dEx.lmaxf), zeroGrid (capOf none dEx.lmaxf))).1,
           (if false then some (applyToks false SHKind.real
             ((dEx.cells.take (triangle dEx.lstart (capOf none dEx.lmaxf)).length).map SCell.toks)
             (triangle dEx.lstart (capOf none dEx.lmaxf))
             (zeroGrid (capOf none dEx.lmaxf), zeroGrid (capOf none dEx.lmaxf))).2 else none),
           dEx.hdr.map pySplit, capOf none dEx.lmaxf⟩ :=
  C5_kind_determination ("5 5 1+2j 0j".toList) dEx none false SHKind.real (by decide)

/-- C7 (amended): on well-formed described files, the result of the call
depends only on the skipped lines, the header line, and the data lines'
tokens: two descriptions that differ only in their comment layout — the
comment lines inside the data region, the trailing comment block, and the
trailing blank lines — produce identical results. The header and skip
region are excluded: `C7_counterexample` shows a comment line inserted
before the header line changes the captured header. -/
theorem C7_comment_insertion (d d' : FDesc) (lmax : Option Nat)
    (wantErr : Bool) (kind : SHKind)
    (hwf : WFDesc wantErr kind d) (hwf' : WFDesc wantErr kind d')
    (hsk : d.skipped = d'.skipped) (hhd : d.hdr = d'.hdr)
    (hls : d.lstart = d'.lstart) (hlf : d.lmaxf = d'.lmaxf)
    (htoks : d.cells.map SCell.toks = d'.cells.map SCell.toks) :
    shread (fileOf d) lmax wantErr d.hdr.isSome d.skipped.length =
    shread (fileOf d') lmax wantErr d'.hdr.isSome d'.skipped.length := by
  rw [(shread_wf_main d lmax wantErr kind hwf).2.2.2,
    (shread_wf_main d' lmax wantErr kind hwf').2.2.2]
  rw [← hhd, ← hls, ← hlf]
  rw [List.map_take, List.map_take, htoks]

/-- Witness for C7: `dEx` and `dEx'` carry the same data-line tokens under
different comment layouts and give the same result. -/
theorem C7_comment_insertion_witness :
    shread (fileOf dEx) none false dEx.hdr.isSome dEx.skipped.length =
    shread (fileOf dEx') none false dEx'.hdr.isSome dEx'.skipped.length :=
  C7_comment_insertion dEx dEx' none false SHKind.real
    (by decide) (by decide) rfl rfl rfl rfl rfl

/-- The result of the run of `shread` on `dEx` with no cap and no errors. -/
def wRes2 : ShResult :=
  ⟨(applyToks false SHKind.real
      ((dEx.cells.take (triangle dEx.lstart (capOf none dEx.lmaxf)).length).map SCell.toks)
      (triangle dEx.lstart (capOf none dEx.lmaxf))
      (zeroGrid (capOf none dEx.lmaxf), zeroGrid (capOf none dEx.lmaxf))).1,
   none, none, 1⟩

/-- `shread` on the rendered `dEx` succeeds with result `wRes2`. -/
theorem wRes2_ok : shread (fileOf dEx) none false false 0 = .ok wRes2 :=
  (shread_wf_main dEx none false SHKind.real (by decide)).2.2.2

/-- Witness for C2 at the concrete run of `dEx`. -/
theorem C2_grid_invariants_witness :
    (wRes2.co.length = 2 ∧
     (∀ pl ∈ wRes2.co, pl.length = wRes2.lmaxout + 1 ∧
        ∀ row ∈ pl, row.length = wRes2.lmaxout + 1)) ∧
    (false = false → wRes2.er = none) ∧
    (false = true → ∃ eg, wRes2.er = some eg ∧ eg.length = 2 ∧
      ∀ pl ∈ eg, pl.length = wRes2.lmaxout + 1 ∧
        ∀ row ∈ pl, row.length = wRes2.lmaxout + 1) ∧
    ∃ lf kind hdr lstart,
      shreadTail (fileOf dEx) = .ok (lf, kind) ∧
      pass2 (toLines (fileOf dEx)) false 0 = .ok (hdr, lstart) ∧
      wRes2.lmaxout = capOf none lf ∧
      (∀ c l m, ¬(c < 2 ∧ lstart ≤ l ∧ l ≤ wRes2.lmaxout ∧ m ≤ l) →
          getG wRes2.co c l m = ⟨0, 0⟩ ∧
          ∀ eg, wRes2.er = some eg → getG eg c l m = ⟨0, 0⟩) ∧
      (∀ l m, lstart ≤ l → l ≤ wRes2.lmaxout → m ≤ l →
        ∃ toks : List (List Char), 4 ≤ toks.length ∧
          pyIntDec (toks.getD 0 []) = some l ∧
          pyIntDec (toks.getD 1 []) = some m ∧
          (∃ c0, parseVal kind (toks.getD 2 []) = some c0 ∧ getG wRes2.co 0 l m = c0) ∧
          (∃ c1, parseVal kind (toks.getD 3 []) = some c1 ∧ getG wRes2.co 1 l m = c1) ∧
          (∀ eg, wRes2.er = some eg →
            (∃ e0, parseVal kind (toks.getD 4 []) = some e0 ∧ getG eg 0 l m = e0) ∧
            (∃ e1, parseVal kind (toks.getD 5 []) = some e1 ∧ getG eg 1 l m = e1))) :=
  C2_grid_invariants (fileOf dEx) none false false 0 wRes2 wRes2_ok

/-- The sample 4-token data line `2 1 1.0 2.0` for the C8 witness. -/
def lineC8 : List Char := "2 1 1.0 2.0".toList

/-- The parsed value of the line's third word. -/
def c0C8 : Cplx := (parseVal SHKind.real ((pySplit lineC8).getD 2 [])).get (by decide)

/-- The parsed value of the line's fourth word. -/
def c1C8 : Cplx := (parseVal SHKind.real ((pySplit lineC8).getD 3 [])).get (by decide)

/-- C8 (amended): when errors are requested, a data line consumed by the
grid reader that passes the order check and whose coefficient words parse
under the kind, but which has fewer than 6 whitespace words, fails the call
with `insufficientFields` naming the line; with at least 6 words whose
words 5-6 also parse, the cell is read and those values are written into
components 0 and 1 of the error grid at (l, m). (The 6-word check runs
after the order check and the coefficient parse: a consumed short line
whose (l, m) words mismatch raises `orderMismatch` instead —
`C8_counterexample`.) -/
theorem C8_insufficient_fields (kind : SHKind) (deg ord : Nat)
    (pre : List (List Char)) (hpre : ∀ c ∈ pre, _iscomment c = true)
    (line : List Char) (hline : _iscomment line = false)
    (rest : List (List Char)) (co er : Grid)
    (h0 : pyIntDec ((pySplit line).getD 0 []) = some deg)
    (h1 : pyIntDec ((pySplit line).getD 1 []) = some ord)
    (c0 c1 : Cplx)
    (h2 : parseVal kind ((pySplit line).getD 2 []) = some c0)
    (h3 : parseVal kind ((pySplit line).getD 3 []) = some c1) :
    ((pySplit line).length < 6 →
      readCell true kind deg ord ⟨pre ++ line :: rest, co, er⟩ =
        .error (.insufficientFields line)) ∧
    (∀ e0 e1, parseVal kind ((pySplit line).getD 4 []) = some e0 →
      parseVal kind ((pySplit line).getD 5 []) = some e1 →
      6 ≤ (pySplit line).length →
      readCell true kind deg ord ⟨pre ++ line :: rest, co, er⟩ =
        .ok ⟨rest, setG (setG co 0 deg ord c0) 1 deg ord c1,
             setG (setG er 0 deg ord e0) 1 deg ord e1⟩) :=
  ⟨fun hlen => readCell_run_short kind deg ord pre hpre line hline rest co er
      h0 h1 c0 c1 h2 h3 hlen,
   fun e0 e1 h4 h5 hlen => readCell_run_err kind deg ord pre hpre line hline
      rest co er h0 h1 c0 c1 e0 e1 h2 h3 hlen h4 h5⟩

/-- Witness for C8 at the 4-token line `2 1 1.0 2.0` read for cell (2, 1). -/
theorem C8_insufficient_fields_witness :
    ((pySplit lineC8).length < 6 →
      readCell true SHKind.real 2 1 ⟨[] ++ lineC8 :: [], zeroGrid 2, zeroGrid 2⟩ =
        .error (.insufficientFields lineC8)) ∧
    (∀ e0 e1, parseVal SHKind.real ((pySplit lineC8).getD 4 []) = some e0 →
      parseVal SHKind.real ((pySplit lineC8).getD 5 []) = some e1 →
      6 ≤ (pySplit lineC8).length →
      readCell true SHKind.real 2 1 ⟨[] ++ lineC8 :: [], zeroGrid 2, zeroGrid 2⟩ =
        .ok ⟨[], setG (setG (zeroGrid 2) 0 2 1 c0C8) 1 2 1 c1C8,
             setG (setG (zeroGrid 2) 0 2 1 e0) 1 2 1 e1⟩) :=
  C8_insufficient_fields SHKind.real 2 1 [] (by decide) lineC8 (by decide)
    [] (zeroGrid 2) (zeroGrid 2) (by decide) (by decide) c0C8 c1C8
    (Option.some_get _).symm (Option.some_get _).symm

/-! The tail scan on a file with no data line: every backward step is taken
and the seek finally moves before the start of the file. -/

/-- Rendering all-blank line contents gives a run of line breaks. -/
theorem renderLines_blank (cs : List (List Char)) (h : ∀ c ∈ cs, c = []) :
    renderLines cs = List.replicate cs.length '\n' := by
  induction cs with
  | nil => rfl
  | cons c cs ih =>
    rw [renderLines, h c (List.mem_cons_self c cs),
      ih (fun x hx => h x (List.mem_cons_of_mem c hx))]
    rfl

/-- Stripping trailing line breaks from an all-line-break range walks back to
position 0 and the final backward seek raises. -/
theorem stripNL_all_nl (b : List Char) : ∀ p : Nat,
    (∀ i, i ≤ p → getC b i = some '\n') →
    stripNL b p = .error .seekError := by
  intro p
  induction p with
  | zero => intro h; rw [stripNL, if_pos (h 0 (le_refl 0))]
  | succ q ih =>
    intro h
    rw [stripNL, if_pos (h (q + 1) (le_refl _))]
    exact ih (fun i hi => h i (by omega))

/-- Every list of line contents is either all blank or has a last non-blank
element followed only by blanks. -/
theorem last_nonblank_split (cs : List (List Char)) :
    (∀ c ∈ cs, c = []) ∨
    ∃ cs1 L cs2, cs = cs1 ++ L :: cs2 ∧ L ≠ [] ∧ ∀ c ∈ cs2, c = [] := by
  induction cs using List.reverseRecOn with
  | nil => exact .inl (fun c hc => absurd hc (List.not_mem_nil c))
  | append_singleton l a ih =>
    by_cases ha : a = []
    · rcases ih with hall | ⟨cs1, L, cs2, hsplit, hL, hcs2⟩
      · refine .inl (fun c hc => ?_)
        rw [List.mem_append] at hc
        rcases hc with hc | hc
        · exact hall c hc
        · rw [List.mem_singleton] at hc
          rw [hc, ha]
      · refine .inr ⟨cs1, L, cs2 ++ [a], by rw [hsplit]; simp, hL, ?_⟩
        intro c hc
        rw [List.mem_append] at hc
        rcases hc with hc | hc
        · exact hcs2 c hc
        · rw [List.mem_singleton] at hc
          rw [hc, ha]
    · exact .inr ⟨l, a, [], rfl, ha, fun c hc => absurd hc (List.not_mem_nil c)⟩

/-- The backward comment-skipping loop, entered two before the end of an
all-comment block at the very start of the file, skips every line and the
final backward seek raises. -/
theorem tailLoop_front (cs1 : List (List Char)) :
    ∀ (tail : List Char) (fuel : Nat),
    (∀ c ∈ cs1, nlFree c = true ∧ _iscomment (c ++ ['\n']) = true) →
    cs1.length + 1 ≤ fuel →
    tailLoopF (renderLines cs1 ++ tail) fuel ((renderLines cs1).length - 2) =
      .error .seekError := by
  induction cs1 using List.reverseRecOn with
  | nil =>
    intro tail fuel _ hfuel
    obtain ⟨f, rfl⟩ : ∃ f, fuel = f + 1 := ⟨fuel - 1, by omega⟩
    rw [show renderLines ([] : List (List Char)) = [] from rfl, List.nil_append]
    rw [show ([] : List Char).length - 2 = 0 from rfl]
    rw [tailLoopF]
    cases tail with
    | nil => rfl
    | cons c cstail =>
      by_cases hc : c = '\n'
      · have hfind : findNL (c :: cstail) 0 = .ok 1 := by
          rw [findNL, show getC (c :: cstail) 0 = some c from by
            rw [getC, List.getElem?_cons_zero]]
          dsimp only
          rw [if_pos hc]
        rw [hfind]
        dsimp only
        rw [if_pos (by omega)]
      · have hfind : findNL (c :: cstail) 0 = .error .seekError := by
          rw [findNL, show getC (c :: cstail) 0 = some c from by
            rw [getC, List.getElem?_cons_zero]]
          dsimp only
          rw [if_neg hc]
        rw [hfind]
  | append_singleton l a ih =>
    intro tail fuel hcs hfuel
    have ha := hcs a (by simp)
    have hl : ∀ c ∈ l, nlFree c = true ∧ _iscomment (c ++ ['\n']) = true :=
      fun c hc => hcs c (by simp [hc])
    obtain ⟨f, rfl⟩ : ∃ f, fuel = f + 1 := ⟨fuel - 1, by omega⟩
    rw [renderLines_append]
    rw [show renderLines [a] = a ++ ['\n'] from by rw [renderLines, renderLines]]
    by_cases hln : l = []
    · subst hln
      rw [show renderLines ([] : List (List Char)) = [] from rfl, List.nil_append]
      have hb : (a ++ ['\n']) ++ tail = a ++ '\n' :: tail := by simp
      rw [hb]
      have hpos : (a ++ ['\n']).length - 2 = a.length - 1 := by simp
      rw [hpos]
      by_cases hae : a = []
      · subst hae
        rw [List.nil_append, show ([] : List Char).length - 1 = 0 from rfl]
        rw [tailLoopF]
        have hfind : findNL ('\n' :: tail) 0 = .ok 1 := by
          rw [findNL, show getC ('\n' :: tail) 0 = some '\n' from by
            rw [getC, List.getElem?_cons_zero]]
          dsimp only
          rw [if_pos rfl]
        rw [hfind]
        dsimp only
        rw [if_pos (by omega)]
      · have hfind := findNL_none a ('\n' :: tail) ha.1 (a.length - 1)
          (by have := List.length_pos.mpr hae; omega)
        rw [tailLoopF, hfind]
    · obtain ⟨P, hP⟩ := renderLines_ends l hln
      rw [hP]
      have hb : ((P ++ ['\n']) ++ (a ++ ['\n'])) ++ tail =
          P ++ '\n' :: (a ++ '\n' :: tail) := by simp
      rw [hb]
      have hpos : ((P ++ ['\n']) ++ (a ++ ['\n'])).length - 2 = P.length + a.length := by
        simp
        omega
      rw [hpos]
      rw [tailLoop_step P a tail f ha.1 a.length (le_refl _)]
      by_cases hP1 : P.length + 1 < 2
      · rw [if_pos hP1]
      · rw [if_neg hP1, if_pos ha.2]
        have hb2 : P ++ '\n' :: (a ++ '\n' :: tail) =
            renderLines l ++ (a ++ '\n' :: tail) := by
          rw [hP]; simp
        have hpos2 : P.length - 1 = (renderLines l).length - 2 := by
          rw [hP]; simp
        rw [hb2, hpos2]
        refine ih (a ++ '\n' :: tail) f hl ?_
        have : (l ++ [a]).length + 1 ≤ f + 1 := hfuel
        simp only [List.length_append, List.length_cons, List.length_nil] at this
        omega

/-- The whole tail scan of a file with no data line — empty, all line
breaks, or comment lines (blank or not) with trailing blank lines — raises
the negative-seek error. -/
theorem allComments_scan (cs : List (List Char)) (j : Nat)
    (hc : ∀ c ∈ cs, commentLineOK c = true) :
    lastLineScan (renderLines cs ++ List.replicate j '\n') = .error .seekError := by
  have hcc : ∀ c ∈ cs, nlFree c = true ∧ _iscomment (c ++ ['\n']) = true := by
    intro c hcm
    have := hc c hcm
    rw [commentLineOK, Bool.and_eq_true] at this
    exact this
  rcases last_nonblank_split cs with hall | ⟨cs1, L, cs2, hsp, hLne, hcs2⟩
  · rw [renderLines_blank cs hall, ← List.replicate_add]
    by_cases hN2 : cs.length + j < 2
    · rw [lastLineScan, if_pos (by rw [List.length_replicate]; exact hN2)]
    · rw [lastLineScan, if_neg (by rw [List.length_replicate]; exact hN2)]
      have hstrip := stripNL_all_nl (List.replicate (cs.length + j) '\n')
        ((List.replicate (cs.length + j) '\n').length - 2)
        (by
          intro i hi
          rw [List.length_replicate] at hi
          rw [getC, List.getElem?_replicate, if_pos (by omega)])
      rw [hstrip]
  · subst hsp
    have hLc := hcc L (List.mem_append_right _ (List.mem_cons_self _ _))
    have hL1 : 1 ≤ L.length := List.length_pos.mpr hLne
    rw [renderLines_append]
    rw [show renderLines (L :: cs2) = L ++ '\n' :: renderLines cs2 from rfl]
    rw [renderLines_blank cs2 hcs2]
    have hshape : (renderLines cs1 ++ (L ++ '\n' :: List.replicate cs2.length '\n')) ++
        List.replicate j '\n' =
        renderLines cs1 ++ ((L ++ ['\n']) ++ List.replicate (cs2.length + j) '\n') := by
      rw [List.replicate_add]
      simp
    rw [hshape]
    by_cases hs : 2 ≤ (renderLines cs1).length + L.length
    · rw [lastLineScan_reduce (renderLines cs1) L (cs2.length + j) hLne hLc.1 hs]
      by_cases hc1 : cs1 = []
      · subst hc1
        simp only [renderLines, List.nil_append, List.length_nil, Nat.zero_add]
        have hb : (L ++ ['\n']) ++ List.replicate (cs2.length + j) '\n' =
            L ++ '\n' :: List.replicate (cs2.length + j) '\n' := by simp
        rw [hb]
        obtain ⟨f, hf⟩ :
            ∃ f, (L ++ '\n' :: List.replicate (cs2.length + j) '\n').length = f + 1 :=
          ⟨L.length + (cs2.length + j), by simp; omega⟩
        rw [hf, tailLoopF,
          findNL_none L ('\n' :: List.replicate (cs2.length + j) '\n') hLc.1
            (L.length - 2) (by omega)]
      · obtain ⟨P, hP⟩ := renderLines_ends cs1 hc1
        have hcl : cs1.length ≤ P.length + 1 := by
          have := renderLines_length_ge cs1
          rw [hP] at this
          simpa using this
        rw [hP]
        have hb : (P ++ ['\n']) ++ ((L ++ ['\n']) ++ List.replicate (cs2.length + j) '\n') =
            P ++ '\n' :: (L ++ '\n' :: List.replicate (cs2.length + j) '\n') := by simp
        rw [hb]
        have hpos : (P ++ ['\n']).length + L.length - 2 = P.length + (L.length - 1) := by
          simp
          omega
        rw [hpos]
        obtain ⟨f, hf1, hf2⟩ :
            ∃ f, (P ++ '\n' :: (L ++ '\n' :: List.replicate (cs2.length + j) '\n')).length =
              f + 1 ∧ cs1.length + 1 ≤ f :=
          ⟨P.length + L.length + 1 + (cs2.length + j), by simp; omega, by omega⟩
        rw [hf1]
        rw [tailLoop_step P L (List.replicate (cs2.length + j) '\n') f hLc.1
          (L.length - 1) (by omega)]
        by_cases hP1 : P.length + 1 < 2
        · rw [if_pos hP1]
        · rw [if_neg hP1, if_pos hLc.2]
          have hb2 : P ++ '\n' :: (L ++ '\n' :: List.replicate (cs2.length + j) '\n') =
              renderLines cs1 ++ (L ++ '\n' :: List.replicate (cs2.length + j) '\n') := by
            rw [hP]
            simp
          have hpos2 : P.length - 1 = (renderLines cs1).length - 2 := by
            rw [hP]
            simp
          rw [hb2, hpos2]
          exact tailLoop_front cs1 (L ++ '\n' :: List.replicate (cs2.length + j) '\n') f
            (fun c hcm => hcc c (List.mem_append_left _ hcm)) hf2
    · have hren0 : (renderLines cs1).length = 0 := by omega
      have hc1 : cs1 = [] := by
        cases hcs1 : cs1 with
        | nil => rfl
        | cons x xs =>
          exfalso
          rw [hcs1, show renderLines (x :: xs) = x ++ '\n' :: renderLines xs from rfl] at hren0
          simp at hren0
      subst hc1
      have hLlen : L.length = 1 := by omega
      cases L with
      | nil => exact absurd rfl hLne
      | cons ch L' =>
        have hL' : L' = [] := by
          rw [List.length_cons] at hLlen
          exact List.eq_nil_of_length_eq_zero (by omega)
        subst hL'
        have hch : ¬ch = '\n' := by
          have := hLc.1
          rw [nlFree, List.all_cons, Bool.and_eq_true] at this
          simpa using this.1
        have hb : renderLines ([] : List (List Char)) ++
            (([ch] ++ ['\n']) ++ List.replicate (cs2.length + j) '\n') =
            ch :: '\n' :: List.replicate (cs2.length + j) '\n' := by simp [renderLines]
        rw [hb]
        rw [lastLineScan, if_neg (by simp)]
        have hq : ¬getC (ch :: '\n' :: List.replicate (cs2.length + j) '\n') 0 = some '\n' := by
          rw [getC, List.getElem?_cons_zero]
          intro hcon
          injection hcon with hcon
          exact hch hcon
        have habove : ∀ i, 0 < i → i ≤ 0 + (cs2.length + j) →
            getC (ch :: '\n' :: List.replicate (cs2.length + j) '\n') i = some '\n' := by
          intro i hi1 hi2
          cases i with
          | zero => omega
          | succ t =>
            rw [getC, List.getElem?_cons_succ]
            cases t with
            | zero => rw [List.getElem?_cons_zero]
            | succ s =>
              rw [List.getElem?_cons_succ, List.getElem?_replicate, if_pos (by omega)]
        have hstrip := stripNL_above (ch :: '\n' :: List.replicate (cs2.length + j) '\n')
          0 hq (cs2.length + j) habove
        rw [Nat.zero_add] at hstrip
        have hlen2 : (ch :: '\n' :: List.replicate (cs2.length + j) '\n').length - 2 =
            cs2.length + j := by simp
        rw [hlen2, hstrip]
        dsimp only
        rw [if_pos (by omega)]

/-- C9 (amended): a file that is empty or consists only of comment lines
(blank lines included) makes the call fail — with the negative-seek error
of the backward tail scan, which has no end-of-stream check, not with an
end-of-file error. -/
theorem C9_all_comments_seek_error (cs : List (List Char)) (j : Nat)
    (hc : ∀ c ∈ cs, commentLineOK c = true)
    (lmax : Option Nat) (e hf : Bool) (skip : Nat) :
    shread (renderLines cs ++ List.replicate j '\n') lmax e hf skip =
      .error .seekError := by
  have hscan := allComments_scan cs j hc
  have htail : shreadTail (renderLines cs ++ List.replicate j '\n') =
      .error .seekError := by
    simp only [shreadTail, Bind.bind, Except.bind]
    rw [hscan]
  simp only [shread, Bind.bind, Except.bind]
  rw [htail]

/-- Witness for C9: a comment line, a blank line, and a short line, with one
trailing blank line. -/
theorem C9_all_comments_seek_error_witness :
    shread (renderLines [['#'], [], ['a', 'b']] ++ List.replicate 1 '\n')
      none false false 0 = .error .seekError :=
  C9_all_comments_seek_error [['#'], [], ['a', 'b']] 1 (by decide) none false false 0
